import Mathlib

/-!
Verification of the pre-order trie node iterator and seek primitive
(`trie-db/src/iterator.rs`).

The iterator walks a hash-addressed radix trie.  We embed the decoded node
model directly: every child slot holds the decoded child node (the resolver
`get_raw_or_lookup` followed by `Codec::decode` is assumed to succeed; the
decode-error path of `next` and `seek` is embedded separately at the end of
the definitions as `seekDecodeStep` / `nextDecodeStep`).  The frame stack
(`trail`) is stored with the top of the Rust `Vec` as the list head.
Machine integers (`usize` cursors, nibbles) are modelled as `Nat`; no
arithmetic in this file can overflow `usize` on the source side.
-/

set_option maxHeartbeats 1000000

namespace TrieIter

/-- Modelled from the spec: `nibble_ops::NIBBLE_LENGTH` (not under `src/`);
a nibble is a value in `0..16`, so a branch node has 16 child slots. -/
def NIBBLE_LENGTH : Nat := 16

/-- Decoded node variants (`OwnedNode`): Empty, Leaf, Extension, Branch,
NibbledBranch, with nibble partial paths `pslice` and optional values.
`children` is the 16-slot child array of a branch, modelled as a list of
optional (already resolved and decoded) child nodes. -/
inductive Node where
  | Empty : Node
  | Leaf (pslice : List Nat) (value : List Nat) : Node
  | Extension (pslice : List Nat) (child : Node) : Node
  | Branch (children : List (Option Node)) (value : Option (List Nat)) : Node
  | NibbledBranch (pslice : List Nat) (children : List (Option Node))
      (value : Option (List Nat)) : Node

/-- The four-state cursor of a traversal frame (`Status`). -/
inductive Status where
  | Entering : Status
  | At : Status
  | AtChild (i : Nat) : Status
  | Exiting : Status
deriving DecidableEq

/-- A traversal frame (`Crumb`): an owned decoded node with its cursor. -/
structure Crumb where
  node : Node
  status : Status

/-- Source `Crumb::increment` (iterator.rs 51-66): move to the next status in the
node's sequence.  The source guard `x < nibble_ops::NIBBLE_LENGTH - 1` is the
`if` below; everything not matched falls to `Exiting`. -/
def Crumb.increment (c : Crumb) : Crumb :=
  { c with status :=
      match c.status, c.node with
      | .Entering, .Extension _ _ => .At
      | .Entering, .Branch _ _ => .At
      | .Entering, .NibbledBranch _ _ _ => .At
      | .At, .Branch _ _ => .AtChild 0
      | .At, .NibbledBranch _ _ _ => .AtChild 0
      | .AtChild x, .Branch _ _ =>
          if x < NIBBLE_LENGTH - 1 then .AtChild (x + 1) else .Exiting
      | .AtChild x, .NibbledBranch _ _ _ =>
          if x < NIBBLE_LENGTH - 1 then .AtChild (x + 1) else .Exiting
      | _, _ => .Exiting }

/-- Iterator state (`TrieDBNodeIterator`): the frame stack and the current
nibble path.  The head of `trail` is the top of the stack (the back of the
Rust `Vec`). -/
structure TrieDBNodeIterator where
  trail : List Crumb
  keyNibbles : List Nat

/-- Source `branch.index(i)`: child slot lookup in the 16-entry child array. -/
def branchIndex (ch : List (Option Node)) (i : Nat) : Option Node :=
  ch.getD i none

/-- Source `NibbleVec::drop_lasts(k)`: remove the last `k` nibbles. -/
def dropLasts (l : List Nat) (k : Nat) : List Nat :=
  l.take (l.length - k)

/-- Outcome of one iteration of the loop inside `Iterator::next`. -/
inductive LoopOut where
  | YieldNode (path : List Nat) (n : Node) (s : TrieDBNodeIterator) : LoopOut
  | Finished (s : TrieDBNodeIterator) : LoopOut
  | Bug (s : TrieDBNodeIterator) : LoopOut
  | Continue (s : TrieDBNodeIterator) : LoopOut

/-- One iteration of the loop of `Iterator::next` (iterator.rs 233-329).
`YieldNode` returns `Some(Ok((key_nibbles.clone(), node)))` after
incrementing the top cursor; `Finished` is a `None` return (empty trail, or
the pop of the last frame); `Bug` is the `panic!` arm for cursor/variant
combinations the implementation never produces; `Continue` loops.  The
`Descend` arms push the (already resolved and decoded) child frame. -/
def loopBody (s : TrieDBNodeIterator) : LoopOut :=
  match s.trail with
  | [] => .Finished s
  | b :: rest =>
    match b.status, b.node with
    | .Entering, _ =>
        .YieldNode s.keyNibbles b.node ⟨b.increment :: rest, s.keyNibbles⟩
    | .Exiting, n =>
        let kn : List Nat :=
          match n with
          | .Empty => s.keyNibbles
          | .Leaf _ _ => s.keyNibbles
          | .Extension p _ => dropLasts s.keyNibbles p.length
          | .Branch _ _ => s.keyNibbles.dropLast
          | .NibbledBranch p _ _ => dropLasts s.keyNibbles (p.length + 1)
        match rest with
        | [] => .Finished ⟨[], kn⟩
        | p :: rs => .Continue ⟨p.increment :: rs, kn⟩
    | .At, .Extension pslice child =>
        .Continue ⟨⟨child, .Entering⟩ :: b :: rest, s.keyNibbles ++ pslice⟩
    | .At, .Branch _ _ =>
        .Continue ⟨b.increment :: rest, s.keyNibbles ++ [0]⟩
    | .At, .NibbledBranch pslice _ _ =>
        .Continue ⟨b.increment :: rest, (s.keyNibbles ++ pslice) ++ [0]⟩
    | .AtChild i, .Branch ch _ =>
        (match branchIndex ch i with
         | some child =>
             .Continue ⟨⟨child, .Entering⟩ :: b :: rest,
               s.keyNibbles.dropLast ++ [i]⟩
         | none => .Continue ⟨b.increment :: rest, s.keyNibbles⟩)
    | .AtChild i, .NibbledBranch _ ch _ =>
        (match branchIndex ch i with
         | some child =>
             .Continue ⟨⟨child, .Entering⟩ :: b :: rest,
               s.keyNibbles.dropLast ++ [i]⟩
         | none => .Continue ⟨b.increment :: rest, s.keyNibbles⟩)
    | _, _ => .Bug s

/-- Fuel-indexed traversal: collect the yields of repeated `next()` calls
until the iterator is exhausted.  `runF 0` is out of fuel. -/
def runF : Nat → TrieDBNodeIterator → List (List Nat × Node)
  | 0, _ => []
  | k + 1, s =>
    match loopBody s with
    | .YieldNode p n s' => (p, n) :: runF k s'
    | .Continue s' => runF k s'
    | .Finished _ => []
    | .Bug _ => []

mutual
/-- Upper bound on the number of loop iterations a frame for this node and
its subtree performs from `Entering` to being popped. -/
def subtreeWeight : Node → Nat
  | .Empty => 2
  | .Leaf _ _ => 2
  | .Extension _ c => 3 + subtreeWeight c
  | .Branch ch _ => 20 + slotsList ch
  | .NibbledBranch _ ch _ => 20 + slotsList ch

/-- Iteration bound for a suffix of a child array. -/
def slotsList : List (Option Node) → Nat
  | [] => 0
  | none :: r => 1 + slotsList r
  | some c :: r => 1 + subtreeWeight c + slotsList r
end

/-- Remaining-iteration bound for a frame at its current cursor. -/
def crumbWeight (c : Crumb) : Nat :=
  match c.status, c.node with
  | .Entering, n => subtreeWeight n
  | .Exiting, _ => 1
  | .At, .Extension _ ch => 2 + subtreeWeight ch
  | .At, .Branch ch _ => 19 + slotsList ch
  | .At, .NibbledBranch _ ch _ => 19 + slotsList ch
  | .At, _ => 2
  | .AtChild i, .Branch ch _ => 2 + (16 - i) + slotsList (ch.drop i)
  | .AtChild i, .NibbledBranch _ ch _ => 2 + (16 - i) + slotsList (ch.drop i)
  | .AtChild _, _ => 2

/-- Iteration bound for the frames below the top: such a frame is
incremented by the pop of the frame above it before it runs again. -/
def restWeight : List Crumb → Nat
  | [] => 0
  | b :: rest => crumbWeight b.increment + restWeight rest

/-- Iteration bound for a whole trail. -/
def trailWeight : List Crumb → Nat
  | [] => 0
  | b :: rest => crumbWeight b + restWeight rest

/-- Total traversal: `runF` with provably sufficient fuel. -/
def run (s : TrieDBNodeIterator) : List (List Nat × Node) :=
  runF (trailWeight s.trail + 1) s

/-- Result of a single `next()` call: a yielded `(path, node)` pair with the
successor state, exhaustion (`None`), or the `panic!` arm. -/
inductive NextRes where
  | Yielded (path : List Nat) (n : Node) (s : TrieDBNodeIterator) : NextRes
  | Exhausted (s : TrieDBNodeIterator) : NextRes
  | Bug (s : TrieDBNodeIterator) : NextRes

/-- Fuel-indexed single `next()` call; `none` is out of fuel. -/
def nextF : Nat → TrieDBNodeIterator → Option NextRes
  | 0, _ => none
  | k + 1, s =>
    match loopBody s with
    | .YieldNode p n s' => some (.Yielded p n s')
    | .Continue s' => nextF k s'
    | .Finished s' => some (.Exhausted s')
    | .Bug s' => some (.Bug s')

/-- A single `next()` call with sufficient fuel. -/
def next (s : TrieDBNodeIterator) : NextRes :=
  (nextF (trailWeight s.trail + 1) s).getD (.Bug s)

/-- Source `TrieDBNodeIterator::new` (77-85): empty trail and path, then `descend`
on the root data pushes the decoded root with status `Entering`. -/
def newState (root : Node) : TrieDBNodeIterator :=
  ⟨[⟨root, .Entering⟩], []⟩

/-- Modelled from the spec: the total lexicographic nibble order of
`NibbleSlice` (`nibble.rs` is not under `src/`); a strict prefix is smaller. -/
def nlt : List Nat → List Nat → Bool
  | [], [] => false
  | [], _ :: _ => true
  | _ :: _, [] => false
  | a :: as, b :: bs => decide (a < b) || (decide (a = b) && nlt as bs)

theorem sizeOf_lt_of_branchIndex :
    ∀ (ch : List (Option Node)) (i : Nat) (c : Node),
      branchIndex ch i = some c → sizeOf c < sizeOf ch := by
  intro ch
  induction ch with
  | nil => intro i c h; simp [branchIndex, List.getD] at h
  | cons a r ih =>
    intro i c h
    cases i with
    | zero =>
      simp [branchIndex, List.getD] at h
      subst h
      simp
      omega
    | succ j =>
      have h' : branchIndex r j = some c := by
        simpa [branchIndex, List.getD_cons_succ] using h
      have := ih j c h'
      simp
      omega

mutual
/-- The private `TrieDBNodeIterator::seek` walk (iterator.rs 87-195).
`s` holds the frames and nibbles accumulated so far, `n` the decoded node
reached, `pk` the remaining key nibbles (`partial` in the source).  Each
step first pushes `⟨n, Entering⟩` (`descend_into_node`) and then adjusts the
top cursor and `key_nibbles` exactly as the source does.  The source's
`if let Some(child) = nodes[i]` is the helper `seekInto` below. -/
def seekRec (s : TrieDBNodeIterator) (n : Node) (pk : List Nat) :
    TrieDBNodeIterator :=
  match n with
  | .Leaf slice _ =>
      if nlt slice pk then ⟨⟨n, .Exiting⟩ :: s.trail, s.keyNibbles⟩
      else ⟨⟨n, .Entering⟩ :: s.trail, s.keyNibbles⟩
  | .Extension slice child =>
      if slice.isPrefixOf pk then
        seekRec ⟨⟨n, .At⟩ :: s.trail, s.keyNibbles ++ slice⟩ child
          (pk.drop slice.length)
      else
        if nlt slice pk then ⟨⟨n, .Exiting⟩ :: s.trail, s.keyNibbles ++ slice⟩
        else ⟨⟨n, .Entering⟩ :: s.trail, s.keyNibbles⟩
  | .Branch ch _ =>
      match pk with
      | [] => ⟨⟨n, .Entering⟩ :: s.trail, s.keyNibbles⟩
      | i :: pkRest =>
          seekInto ⟨⟨n, .AtChild i⟩ :: s.trail, s.keyNibbles ++ [i]⟩
            ch i pkRest
  | .NibbledBranch slice ch _ =>
      if slice.isPrefixOf pk then
        match pk.drop slice.length with
        | [] => ⟨⟨n, .Entering⟩ :: s.trail, s.keyNibbles⟩
        | i :: pkRest =>
            seekInto
              ⟨⟨n, .AtChild i⟩ :: s.trail, (s.keyNibbles ++ slice) ++ [i]⟩
              ch i pkRest
      else
        if nlt slice pk then
          ⟨⟨n, .Exiting⟩ :: s.trail,
            (s.keyNibbles ++ slice) ++ [NIBBLE_LENGTH - 1]⟩
        else ⟨⟨n, .Entering⟩ :: s.trail, s.keyNibbles⟩
  | .Empty =>
      if pk = [] then ⟨⟨n, .Entering⟩ :: s.trail, s.keyNibbles⟩
      else ⟨⟨n, .Exiting⟩ :: s.trail, s.keyNibbles⟩

/-- The `if let Some(child) = nodes[i]` step of the seek walk: look up child
slot `i` (by walking the child array); recurse into a present child, return
the prepared state `s2` otherwise. -/
def seekInto (s2 : TrieDBNodeIterator) :
    List (Option Node) → Nat → List Nat → TrieDBNodeIterator
  | [], _, _ => s2
  | none :: _, 0, _ => s2
  | some c :: _, 0, pkRest => seekRec s2 c pkRest
  | _ :: r, i + 1, pkRest => seekInto s2 r i pkRest
end

/-- Source `TrieIterator::seek` (215-220): clear the trail and the path, resolve the
root and run the private seek walk on the key nibbles. -/
def seekState (root : Node) (key : List Nat) : TrieDBNodeIterator :=
  seekRec ⟨[], []⟩ root key

/-- Modelled from the spec: `NibbleSlice::new` over a byte key, high nibble
of each byte first. -/
def bytesToNibbles (bs : List Nat) : List Nat :=
  bs.flatMap (fun b => [b / 16, b % 16])

mutual
/-- Follows the spec's words (yield order, §4.6.2): the pre-order listing of
the trie below `n`, which sits at nibble path `kn`; a node is reported before
its descendants and siblings are reported in ascending nibble order.  This is
the reference sequence the iterator is compared against. -/
def preorder (kn : List Nat) : Node → List (List Nat × Node)
  | .Empty => [(kn, .Empty)]
  | .Leaf p v => [(kn, .Leaf p v)]
  | .Extension p c => (kn, .Extension p c) :: preorder (kn ++ p) c
  | .Branch ch v => (kn, .Branch ch v) :: preorderCh kn 0 ch
  | .NibbledBranch p ch v =>
      (kn, .NibbledBranch p ch v) :: preorderCh (kn ++ p) 0 ch

/-- Pre-order listings of the child subtrees of a branch sitting at `kn`,
starting at slot index `i`; each present child in slot `j` is listed below
path `kn ++ [j]`, in ascending slot order. -/
def preorderCh (kn : List Nat) (i : Nat) :
    List (Option Node) → List (List Nat × Node)
  | [] => []
  | none :: r => preorderCh kn (i + 1) r
  | some c :: r => preorder (kn ++ [i]) c ++ preorderCh kn (i + 1) r
end

/-- The nibbles this node consumes beyond its position: its partial path. -/
def Node.pslicePart : Node → List Nat
  | .Empty => []
  | .Leaf p _ => p
  | .Extension p _ => p
  | .Branch _ _ => []
  | .NibbledBranch p _ _ => p

/-- Whether the node is the Extension variant. -/
def Node.isExt : Node → Bool
  | .Extension _ _ => true
  | _ => false

/-- The full path of a reported `(path, node)` pair: the position at which
the node sits followed by the partial path the node itself consumes. -/
def fullPathOf (pn : List Nat × Node) : List Nat :=
  pn.1 ++ pn.2.pslicePart

/-- The entries a seek for key `key` positions the iterator past, reading the
claim literally: those whose full path is lexicographically smaller than the
key. -/
def seekSkipClaim (key : List Nat) (pn : List Nat × Node) : Bool :=
  nlt (fullPathOf pn) key

/-- The entries the implementation actually skips: additionally an Extension
node whose full path is exactly the key (seek descends through it). -/
def seekSkip (key : List Nat) (pn : List Nat × Node) : Bool :=
  nlt (fullPathOf pn) key || (pn.2.isExt && fullPathOf pn == key)

mutual
/-- Well-formed decoded trie: every Extension has a non-empty partial path
and every branch child array has exactly 16 slots, as the codec guarantees. -/
def wfN : Node → Bool
  | .Empty => true
  | .Leaf _ _ => true
  | .Extension p c => (!p.isEmpty) && wfN c
  | .Branch ch _ => (ch.length == 16) && wfCh ch
  | .NibbledBranch _ ch _ => (ch.length == 16) && wfCh ch

/-- Well-formedness of a child array. -/
def wfCh : List (Option Node) → Bool
  | [] => true
  | none :: r => wfCh r
  | some c :: r => wfN c && wfCh r
end

/-- The continuation of a traversal once the frame above `ctx` has been
popped with the nibble path restored to `kn`: the pop increments the cursor
of the newly exposed top frame (or ends the traversal). -/
def contRun (ctx : List Crumb) (kn : List Nat) : List (List Nat × Node) :=
  match ctx with
  | [] => []
  | p :: rs => run ⟨p.increment :: rs, kn⟩

/-- Trie error variants relevant to the iterator (`TrieError`). -/
inductive TrieErr where
  | DecoderError (hash : Nat) (detail : Nat) : TrieErr
  | IncompleteDatabase (hash : Nat) : TrieErr
deriving DecidableEq

/-- The decode-and-wrap step of the private seek (iterator.rs 96-101):
decode the node data; on failure return `DecoderError` carrying the hash of
the rejected bytes.  `hash` and `decode` abstract `L::Hash::hash` and
`L::Codec::decode`. -/
def seekDecodeStep (hash : List Nat → Nat) (decode : List Nat → Except Nat Node)
    (nodeData : List Nat) : Except TrieErr Node :=
  match decode nodeData with
  | .ok n => .ok n
  | .error e => .error (.DecoderError (hash nodeData) e)

/-- The decode-and-wrap step of the `Descend` arm of `next` (iterator.rs
305-313): the resolver result is decoded; on failure the returned error is
`DecoderError` carrying the hash of the rejected encoded bytes. -/
def nextDecodeStep (hash : List Nat → Nat) (decode : List Nat → Except Nat Node)
    (res : Except TrieErr (List Nat)) : Except TrieErr Node :=
  match res with
  | .error e => .error e
  | .ok encoded =>
      match decode encoded with
      | .ok n => .ok n
      | .error err => .error (.DecoderError (hash encoded) err)

/-- Builds a 16-slot child array from (slot, child) pairs, for concrete
test tries. -/
def mkChildren (ps : List (Nat × Node)) : List (Option Node) :=
  (List.range 16).map (fun i => ps.lookup i)

/-- The extension-layout trie of the source tests (pairs
`01 → "aaaa"`, `0123 → "bbbb"`, `02 → "cccc"`). -/
def exTrie : Node :=
  .Extension [0]
    (.Branch (mkChildren
      [(1, .Branch (mkChildren [(2, .Leaf [3] [98])]) (some [97])),
       (2, .Leaf [] [99])]) none)

/-- The extension-free trie of the source tests (same pairs). -/
def exTrieNoExt : Node :=
  .NibbledBranch [0] (mkChildren
    [(1, .NibbledBranch [] (mkChildren [(2, .Leaf [3] [98])]) (some [97])),
     (2, .Leaf [] [99])]) none

/-- A trie whose root Extension has full path exactly `[0, 1]`: keys
`0x010...` and `0x013...`. -/
def exTrieC1 : Node :=
  .Extension [0, 1]
    (.Branch (mkChildren [(0, .Leaf [] [1]), (3, .Leaf [] [2])]) none)

/-- Follows the spec's words (P5): node `m` lies in the trie below `n` at the
relative nibble path `q` obtained by concatenating the partial paths and the
chosen branch-selector nibbles from `n` down to `m`. -/
inductive SpecPathTo : Node → List Nat → Node → Prop where
  | here (n : Node) : SpecPathTo n [] n
  | ext (p : List Nat) (c m : Node) (q : List Nat) :
      SpecPathTo c q m → SpecPathTo (.Extension p c) (p ++ q) m
  | branch (ch : List (Option Node)) (v : Option (List Nat)) (i : Nat)
      (c m : Node) (q : List Nat) : branchIndex ch i = some c →
      SpecPathTo c q m → SpecPathTo (.Branch ch v) (i :: q) m
  | nibbled (p : List Nat) (ch : List (Option Node)) (v : Option (List Nat))
      (i : Nat) (c m : Node) (q : List Nat) : branchIndex ch i = some c →
      SpecPathTo c q m → SpecPathTo (.NibbledBranch p ch v) (p ++ i :: q) m

/-! ### Termination measure facts -/

theorem slotsList_tail_le : ∀ l : List (Option Node),
    slotsList (l.drop 1) ≤ slotsList l := by
  intro l
  cases l with
  | nil => simp
  | cons a r =>
    cases a <;> simp [slotsList] <;> omega

theorem slotsList_drop_succ_le (ch : List (Option Node)) (i : Nat) :
    slotsList (ch.drop (i + 1)) ≤ slotsList (ch.drop i) := by
  have h : ch.drop (i + 1) = (ch.drop i).drop 1 := by
    rw [List.drop_drop]
  rw [h]
  exact slotsList_tail_le _

theorem drop_eq_cons_of_branchIndex :
    ∀ (ch : List (Option Node)) (i : Nat) (c : Node),
      branchIndex ch i = some c → ch.drop i = some c :: ch.drop (i + 1) := by
  intro ch
  induction ch with
  | nil => intro i c h; simp [branchIndex, List.getD] at h
  | cons a r ih =>
    intro i c h
    cases i with
    | zero =>
      simp [branchIndex, List.getD] at h
      subst h
      simp
    | succ j =>
      have h' : branchIndex r j = some c := by
        simpa [branchIndex, List.getD_cons_succ] using h
      simpa using ih j c h'

theorem slotsList_drop_of_branchIndex {ch : List (Option Node)} {i : Nat}
    {c : Node} (h : branchIndex ch i = some c) :
    slotsList (ch.drop i) = 1 + subtreeWeight c + slotsList (ch.drop (i + 1)) := by
  rw [drop_eq_cons_of_branchIndex ch i c h, slotsList]

/-- Every `Continue` step of the loop strictly decreases the trail weight. -/
theorem weight_lt_of_continue :
    ∀ s s', loopBody s = .Continue s' →
      trailWeight s'.trail < trailWeight s.trail := by
  rintro ⟨tr, kn⟩ s' h
  cases tr with
  | nil => simp [loopBody] at h
  | cons b rest =>
    obtain ⟨n, st⟩ := b
    cases st with
    | Entering => cases n <;> simp [loopBody] at h
    | Exiting =>
      cases rest with
      | nil => cases n <;> simp [loopBody] at h
      | cons p rs =>
        cases n <;>
          (simp only [loopBody, LoopOut.Continue.injEq] at h
           subst h
           simp [trailWeight, restWeight, crumbWeight]
           try omega)
    | At =>
      cases n with
      | Empty => simp [loopBody] at h
      | Leaf p v => simp [loopBody] at h
      | Extension p c =>
        simp only [loopBody, LoopOut.Continue.injEq] at h
        subst h
        simp [trailWeight, restWeight, crumbWeight, Crumb.increment]
        try omega
      | Branch ch v =>
        simp only [loopBody, LoopOut.Continue.injEq] at h
        subst h
        simp [trailWeight, restWeight, crumbWeight, Crumb.increment]
        try omega
      | NibbledBranch p ch v =>
        simp only [loopBody, LoopOut.Continue.injEq] at h
        subst h
        simp [trailWeight, restWeight, crumbWeight, Crumb.increment]
        try omega
    | AtChild i =>
      cases n with
      | Empty => simp [loopBody] at h
      | Leaf p v => simp [loopBody] at h
      | Extension p c => simp [loopBody] at h
      | Branch ch v =>
        rcases hbi : branchIndex ch i with _ | c
        · simp only [loopBody, hbi, LoopOut.Continue.injEq] at h
          subst h
          have hle := slotsList_drop_succ_le ch i
          by_cases hi : i < 15 <;>
            simp [trailWeight, restWeight, crumbWeight, Crumb.increment,
              NIBBLE_LENGTH, hi] <;>
            omega
        · simp only [loopBody, hbi, LoopOut.Continue.injEq] at h
          subst h
          have heq := slotsList_drop_of_branchIndex hbi
          by_cases hi : i < 15 <;>
            simp [trailWeight, restWeight, crumbWeight, Crumb.increment,
              NIBBLE_LENGTH, hi] <;>
            omega
      | NibbledBranch p ch v =>
        rcases hbi : branchIndex ch i with _ | c
        · simp only [loopBody, hbi, LoopOut.Continue.injEq] at h
          subst h
          have hle := slotsList_drop_succ_le ch i
          by_cases hi : i < 15 <;>
            simp [trailWeight, restWeight, crumbWeight, Crumb.increment,
              NIBBLE_LENGTH, hi] <;>
            omega
        · simp only [loopBody, hbi, LoopOut.Continue.injEq] at h
          subst h
          have heq := slotsList_drop_of_branchIndex hbi
          by_cases hi : i < 15 <;>
            simp [trailWeight, restWeight, crumbWeight, Crumb.increment,
              NIBBLE_LENGTH, hi] <;>
            omega

/-- Every yield step of the loop strictly decreases the trail weight. -/
theorem weight_lt_of_yield :
    ∀ s p n s', loopBody s = .YieldNode p n s' →
      trailWeight s'.trail < trailWeight s.trail := by
  rintro ⟨tr, kn⟩ p n s' h
  cases tr with
  | nil => simp [loopBody] at h
  | cons b rest =>
    obtain ⟨m, st⟩ := b
    cases st with
    | Entering =>
      cases m <;>
        (simp only [loopBody, LoopOut.YieldNode.injEq] at h
         obtain ⟨-, -, h⟩ := h
         subst h
         simp [trailWeight, restWeight, crumbWeight, Crumb.increment,
           subtreeWeight]
         try omega)
    | Exiting =>
      cases rest with
      | nil => cases m <;> simp [loopBody] at h
      | cons q rs => cases m <;> simp [loopBody] at h
    | At =>
      cases m <;> simp [loopBody] at h
    | AtChild i =>
      cases m with
      | Empty => simp [loopBody] at h
      | Leaf q v => simp [loopBody] at h
      | Extension q c => simp [loopBody] at h
      | Branch ch v =>
        rcases hbi : branchIndex ch i with _ | c <;> simp [loopBody, hbi] at h
      | NibbledBranch q ch v =>
        rcases hbi : branchIndex ch i with _ | c <;> simp [loopBody, hbi] at h

/-! ### Fuel stability and step lemmas -/

theorem runF_stable : ∀ k s, trailWeight s.trail < k →
    runF k s = runF (trailWeight s.trail + 1) s := by
  intro k
  induction k using Nat.strong_induction_on with
  | _ k ih =>
    intro s hk
    cases k with
    | zero => omega
    | succ k' =>
      rcases hl : loopBody s with ⟨p, n, s'⟩ | s' | s' | s'
      · have h1 := weight_lt_of_yield s p n s' hl
        have e1 : runF (k' + 1) s = (p, n) :: runF k' s' := by
          simp [runF, hl]
        have e2 : runF (trailWeight s.trail + 1) s
            = (p, n) :: runF (trailWeight s.trail) s' := by
          simp [runF, hl]
        rw [e1, e2,
          ih k' (Nat.lt_succ_self k') s' (by omega),
          ih (trailWeight s.trail) hk s' h1]
      · have e1 : runF (k' + 1) s = [] := by simp [runF, hl]
        have e2 : runF (trailWeight s.trail + 1) s = [] := by simp [runF, hl]
        rw [e1, e2]
      · have e1 : runF (k' + 1) s = [] := by simp [runF, hl]
        have e2 : runF (trailWeight s.trail + 1) s = [] := by simp [runF, hl]
        rw [e1, e2]
      · have h1 := weight_lt_of_continue s s' hl
        have e1 : runF (k' + 1) s = runF k' s' := by simp [runF, hl]
        have e2 : runF (trailWeight s.trail + 1) s
            = runF (trailWeight s.trail) s' := by simp [runF, hl]
        rw [e1, e2,
          ih k' (Nat.lt_succ_self k') s' (by omega),
          ih (trailWeight s.trail) hk s' h1]

theorem run_yield {s : TrieDBNodeIterator} {p : List Nat} {n : Node}
    {s' : TrieDBNodeIterator} (h : loopBody s = .YieldNode p n s') :
    run s = (p, n) :: run s' := by
  have h1 := weight_lt_of_yield s p n s' h
  unfold run
  have e : runF (trailWeight s.trail + 1) s
      = (p, n) :: runF (trailWeight s.trail) s' := by
    simp [runF, h]
  rw [e, runF_stable (trailWeight s.trail) s' h1]

theorem run_cont {s s' : TrieDBNodeIterator} (h : loopBody s = .Continue s') :
    run s = run s' := by
  have h1 := weight_lt_of_continue s s' h
  unfold run
  have e : runF (trailWeight s.trail + 1) s
      = runF (trailWeight s.trail) s' := by
    simp [runF, h]
  rw [e, runF_stable (trailWeight s.trail) s' h1]

theorem run_finished {s s' : TrieDBNodeIterator}
    (h : loopBody s = .Finished s') : run s = [] := by
  unfold run
  simp [runF, h]

theorem nextF_isSome_of_lt : ∀ k s, trailWeight s.trail < k →
    (nextF k s).isSome := by
  intro k
  induction k using Nat.strong_induction_on with
  | _ k ih =>
    intro s hk
    cases k with
    | zero => omega
    | succ k' =>
      rcases hl : loopBody s with ⟨p, n, s'⟩ | s' | s' | s'
      · simp [nextF, hl]
      · simp [nextF, hl]
      · simp [nextF, hl]
      · have h1 := weight_lt_of_continue s s' hl
        have e : nextF (k' + 1) s = nextF k' s' := by simp [nextF, hl]
        rw [e]
        exact ih k' (Nat.lt_succ_self k') s' (by omega)

theorem loopBody_finished_trail {s s' : TrieDBNodeIterator}
    (h : loopBody s = .Finished s') : s'.trail = [] := by
  obtain ⟨tr, kn⟩ := s
  cases tr with
  | nil =>
    simp only [loopBody] at h
    cases h
    rfl
  | cons b rest =>
    obtain ⟨n, st⟩ := b
    cases st with
    | Entering => cases n <;> simp [loopBody] at h
    | At => cases n <;> simp [loopBody] at h
    | AtChild i =>
      cases n with
      | Empty => simp [loopBody] at h
      | Leaf q v => simp [loopBody] at h
      | Extension q c => simp [loopBody] at h
      | Branch ch v =>
        rcases hbi : branchIndex ch i with _ | c <;> simp [loopBody, hbi] at h
      | NibbledBranch q ch v =>
        rcases hbi : branchIndex ch i with _ | c <;> simp [loopBody, hbi] at h
    | Exiting =>
      cases rest with
      | nil =>
        cases n <;>
          (simp only [loopBody, LoopOut.Finished.injEq] at h
           subst h
           rfl)
      | cons q rs => cases n <;> simp [loopBody] at h

theorem nextF_exhausted_trail : ∀ k (s s' : TrieDBNodeIterator),
    nextF k s = some (.Exhausted s') → s'.trail = [] := by
  intro k
  induction k with
  | zero => intro s s' h; simp [nextF] at h
  | succ k' ih =>
    intro s s' h
    rcases hl : loopBody s with ⟨p, n, t⟩ | t | t | t <;>
      simp only [nextF, hl] at h
    · simp at h
    · simp at h
      subst h
      exact loopBody_finished_trail hl
    · simp at h
    · exact ih t s' h

/-! ### Nibble path bookkeeping -/

theorem dropLasts_append (a b : List Nat) : dropLasts (a ++ b) b.length = a := by
  unfold dropLasts
  rw [List.length_append, Nat.add_sub_cancel, List.take_left]

theorem dropLasts_append_snoc (a b : List Nat) (x : Nat) :
    dropLasts ((a ++ b) ++ [x]) (b.length + 1) = a := by
  have h : (a ++ b) ++ [x] = a ++ (b ++ [x]) := by simp
  have hl : (b ++ [x]).length = b.length + 1 := by simp
  rw [h, ← hl, dropLasts_append]

/-! ### Exit steps restore the entry path and pop the frame -/

theorem run_exit_empty (ctx : List Crumb) (kn : List Nat) :
    run ⟨⟨.Empty, .Exiting⟩ :: ctx, kn⟩ = contRun ctx kn := by
  cases ctx with
  | nil => exact run_finished rfl
  | cons q rs => exact run_cont rfl

theorem run_exit_leaf (p v : List Nat) (ctx : List Crumb) (kn : List Nat) :
    run ⟨⟨.Leaf p v, .Exiting⟩ :: ctx, kn⟩ = contRun ctx kn := by
  cases ctx with
  | nil => exact run_finished rfl
  | cons q rs => exact run_cont rfl

theorem run_exit_ext (p : List Nat) (c : Node) (ctx : List Crumb)
    (kn : List Nat) :
    run ⟨⟨.Extension p c, .Exiting⟩ :: ctx, kn ++ p⟩ = contRun ctx kn := by
  cases ctx with
  | nil => exact run_finished rfl
  | cons q rs =>
    have hl : loopBody ⟨⟨.Extension p c, .Exiting⟩ :: q :: rs, kn ++ p⟩
        = .Continue ⟨q.increment :: rs, dropLasts (kn ++ p) p.length⟩ := rfl
    rw [run_cont hl, dropLasts_append]
    rfl

theorem run_exit_branch (ch : List (Option Node)) (v : Option (List Nat))
    (ctx : List Crumb) (kn : List Nat) (x : Nat) :
    run ⟨⟨.Branch ch v, .Exiting⟩ :: ctx, kn ++ [x]⟩ = contRun ctx kn := by
  cases ctx with
  | nil => exact run_finished rfl
  | cons q rs =>
    have hl : loopBody ⟨⟨.Branch ch v, .Exiting⟩ :: q :: rs, kn ++ [x]⟩
        = .Continue ⟨q.increment :: rs, (kn ++ [x]).dropLast⟩ := rfl
    rw [run_cont hl, List.dropLast_concat]
    rfl

theorem run_exit_nibbled (p : List Nat) (ch : List (Option Node))
    (v : Option (List Nat)) (ctx : List Crumb) (kn : List Nat) (x : Nat) :
    run ⟨⟨.NibbledBranch p ch v, .Exiting⟩ :: ctx, (kn ++ p) ++ [x]⟩
      = contRun ctx kn := by
  cases ctx with
  | nil => exact run_finished rfl
  | cons q rs =>
    have hl : loopBody
        ⟨⟨.NibbledBranch p ch v, .Exiting⟩ :: q :: rs, (kn ++ p) ++ [x]⟩
        = .Continue ⟨q.increment :: rs,
            dropLasts ((kn ++ p) ++ [x]) (p.length + 1)⟩ := rfl
    rw [run_cont hl, dropLasts_append_snoc]
    rfl

/-! ### The traversal of a subtree is its pre-order listing -/

theorem slotsList_drop_le (ch : List (Option Node)) :
    ∀ i, slotsList (ch.drop i) ≤ slotsList ch := by
  intro i
  induction i with
  | zero => simp
  | succ j ih => exact le_trans (slotsList_drop_succ_le ch j) ih

theorem subtreeWeight_lt_of_branchIndex {ch : List (Option Node)} {i : Nat}
    {c : Node} (h : branchIndex ch i = some c) :
    subtreeWeight c < 20 + slotsList ch := by
  have h1 := slotsList_drop_of_branchIndex h
  have h2 := slotsList_drop_le ch i
  omega

theorem branchIndex_drop {ch : List (Option Node)} {i : Nat}
    (h : i < ch.length) :
    ch.drop i = branchIndex ch i :: ch.drop (i + 1) := by
  rw [List.drop_eq_getElem_cons h]
  congr 1
  rw [branchIndex, List.getD_eq_getElem?_getD, List.getElem?_eq_getElem h]
  rfl

theorem branchIndex_none_of_le {ch : List (Option Node)} {i : Nat}
    (h : ch.length ≤ i) : branchIndex ch i = none := by
  rw [branchIndex, List.getD_eq_getElem?_getD, List.getElem?_eq_none h]
  rfl

theorem wfN_branch_parts {ch : List (Option Node)} {v : Option (List Nat)}
    (h : wfN (.Branch ch v) = true) : ch.length = 16 ∧ wfCh ch = true := by
  simpa [wfN, Bool.and_eq_true] using h

theorem wfN_nibbled_parts {p : List Nat} {ch : List (Option Node)}
    {v : Option (List Nat)} (h : wfN (.NibbledBranch p ch v) = true) :
    ch.length = 16 ∧ wfCh ch = true := by
  simpa [wfN, Bool.and_eq_true] using h

theorem wfN_ext_parts {p : List Nat} {c : Node}
    (h : wfN (.Extension p c) = true) : p ≠ [] ∧ wfN c = true := by
  have h' := h
  simp [wfN, Bool.and_eq_true] at h'
  exact ⟨by simpa [List.isEmpty_iff] using h'.1, h'.2⟩

theorem wfCh_branchIndex : ∀ (ch : List (Option Node)) (i : Nat) (c : Node),
    wfCh ch = true → branchIndex ch i = some c → wfN c = true := by
  intro ch
  induction ch with
  | nil => intro i c _ h; simp [branchIndex, List.getD] at h
  | cons a r ihr =>
    intro i c hw h
    cases i with
    | zero =>
      simp [branchIndex, List.getD] at h
      subst h
      have hw' : wfN c = true ∧ wfCh r = true := by
        simpa [wfCh, Bool.and_eq_true] using hw
      exact hw'.1
    | succ j =>
      have h' : branchIndex r j = some c := by
        simpa [branchIndex, List.getD_cons_succ] using h
      have hw' : wfCh r = true := by
        cases a with
        | none => simpa [wfCh] using hw
        | some b =>
          have := by simpa [wfCh, Bool.and_eq_true] using hw
          exact this.2
      exact ihr j c hw' h'

/-- Resuming a branch-shaped frame at cursor `AtChild i` runs the pre-order
listings of the remaining child slots and then exits, restoring the nibble
path.  `P` is the partial of a NibbledBranch and `[]` for a Branch; the
nibble `x` below slot position in `key_nibbles` is overwritten or stripped. -/
theorem run_slots (ch : List (Option Node)) (v : Option (List Nat))
    (P : List Nat) (n : Node)
    (hn : (n = .Branch ch v ∧ P = []) ∨ n = .NibbledBranch P ch v)
    (hlen : ch.length = 16)
    (IH : ∀ i c, branchIndex ch i = some c → ∀ ctx kn,
      run ⟨⟨c, .Entering⟩ :: ctx, kn⟩ = preorder kn c ++ contRun ctx kn) :
    ∀ k i, i + k = 15 → ∀ (x : Nat) (ctx : List Crumb) (kn : List Nat),
      run ⟨⟨n, .AtChild i⟩ :: ctx, (kn ++ P) ++ [x]⟩
        = preorderCh (kn ++ P) i (ch.drop i) ++ contRun ctx kn := by
  have hexit : ∀ (ctx : List Crumb) (kn : List Nat) (x : Nat),
      run ⟨⟨n, .Exiting⟩ :: ctx, (kn ++ P) ++ [x]⟩ = contRun ctx kn := by
    intro ctx kn x
    rcases hn with ⟨hb, hP⟩ | hb
    · subst hb; subst hP
      simpa using run_exit_branch ch v ctx kn x
    · subst hb
      exact run_exit_nibbled P ch v ctx kn x
  have hstep : ∀ (i : Nat) (ctx : List Crumb) (kn : List Nat),
      loopBody ⟨⟨n, .AtChild i⟩ :: ctx, kn⟩ =
        (match branchIndex ch i with
         | some child =>
            .Continue ⟨⟨child, .Entering⟩ :: ⟨n, .AtChild i⟩ :: ctx,
              kn.dropLast ++ [i]⟩
         | none =>
            .Continue ⟨(Crumb.mk n (.AtChild i)).increment :: ctx, kn⟩) := by
    intro i ctx kn
    rcases hn with ⟨hb, -⟩ | hb <;> subst hb <;> rfl
  have hinc_lt : ∀ i, i < 15 →
      (Crumb.mk n (.AtChild i)).increment = ⟨n, .AtChild (i + 1)⟩ := by
    intro i hi
    rcases hn with ⟨hb, -⟩ | hb <;> subst hb <;>
      simp [Crumb.increment, NIBBLE_LENGTH, hi]
  have hinc_last :
      (Crumb.mk n (.AtChild 15)).increment = ⟨n, .Exiting⟩ := by
    rcases hn with ⟨hb, -⟩ | hb <;> subst hb <;>
      simp [Crumb.increment, NIBBLE_LENGTH]
  intro k
  induction k with
  | zero =>
    intro i hi x ctx kn
    have hi15 : i = 15 := by omega
    subst hi15
    have hd : ch.drop 15 = branchIndex ch 15 :: ch.drop 16 :=
      branchIndex_drop (by omega)
    have hnil : ch.drop 16 = [] := List.drop_eq_nil_of_le (by omega)
    rcases hbi : branchIndex ch 15 with _ | c
    · rw [run_cont ((hstep 15 ctx ((kn ++ P) ++ [x])).trans (by rw [hbi]))]
      rw [hinc_last, hexit]
      rw [hd, hbi, hnil]
      simp [preorderCh]
    · rw [run_cont ((hstep 15 ctx ((kn ++ P) ++ [x])).trans (by rw [hbi]))]
      rw [List.dropLast_concat]
      rw [IH 15 c hbi (⟨n, .AtChild 15⟩ :: ctx) ((kn ++ P) ++ [15])]
      have hc : contRun (⟨n, .AtChild 15⟩ :: ctx) ((kn ++ P) ++ [15])
          = run ⟨(Crumb.mk n (.AtChild 15)).increment :: ctx,
              (kn ++ P) ++ [15]⟩ := rfl
      rw [hc, hinc_last, hexit]
      rw [hd, hbi, hnil]
      simp [preorderCh]
  | succ k ihk =>
    intro i hi x ctx kn
    have hlt : i < 15 := by omega
    have hd : ch.drop i = branchIndex ch i :: ch.drop (i + 1) :=
      branchIndex_drop (by omega)
    rcases hbi : branchIndex ch i with _ | c
    · rw [run_cont ((hstep i ctx ((kn ++ P) ++ [x])).trans (by rw [hbi]))]
      rw [hinc_lt i hlt]
      rw [ihk (i + 1) (by omega) x ctx kn]
      rw [hd, hbi]
      simp [preorderCh]
    · rw [run_cont ((hstep i ctx ((kn ++ P) ++ [x])).trans (by rw [hbi]))]
      rw [List.dropLast_concat]
      rw [IH i c hbi (⟨n, .AtChild i⟩ :: ctx) ((kn ++ P) ++ [i])]
      have hc : contRun (⟨n, .AtChild i⟩ :: ctx) ((kn ++ P) ++ [i])
          = run ⟨(Crumb.mk n (.AtChild i)).increment :: ctx,
              (kn ++ P) ++ [i]⟩ := rfl
      rw [hc, hinc_lt i hlt]
      rw [ihk (i + 1) (by omega) i ctx kn]
      rw [hd, hbi]
      simp [preorderCh]

theorem run_entering_aux : ∀ w n, subtreeWeight n ≤ w → wfN n = true →
    ∀ (ctx : List Crumb) (kn : List Nat),
      run ⟨⟨n, .Entering⟩ :: ctx, kn⟩ = preorder kn n ++ contRun ctx kn := by
  intro w
  induction w using Nat.strong_induction_on with
  | _ w ih =>
    intro n hw hwf ctx kn
    cases n with
    | Empty =>
      have h1 : loopBody ⟨⟨.Empty, .Entering⟩ :: ctx, kn⟩
          = .YieldNode kn .Empty ⟨⟨.Empty, .Exiting⟩ :: ctx, kn⟩ := rfl
      rw [run_yield h1, run_exit_empty]
      simp [preorder]
    | Leaf p v =>
      have h1 : loopBody ⟨⟨.Leaf p v, .Entering⟩ :: ctx, kn⟩
          = .YieldNode kn (.Leaf p v) ⟨⟨.Leaf p v, .Exiting⟩ :: ctx, kn⟩ := rfl
      rw [run_yield h1, run_exit_leaf]
      simp [preorder]
    | Extension p c =>
      have h1 : loopBody ⟨⟨.Extension p c, .Entering⟩ :: ctx, kn⟩
          = .YieldNode kn (.Extension p c)
              ⟨⟨.Extension p c, .At⟩ :: ctx, kn⟩ := rfl
      have h2 : loopBody ⟨⟨.Extension p c, .At⟩ :: ctx, kn⟩
          = .Continue ⟨⟨c, .Entering⟩ :: ⟨.Extension p c, .At⟩ :: ctx,
              kn ++ p⟩ := rfl
      rw [run_yield h1, run_cont h2]
      have hsub : 3 + subtreeWeight c ≤ w := by
        simpa [subtreeWeight] using hw
      rw [ih (subtreeWeight c) (by omega) c le_rfl (wfN_ext_parts hwf).2]
      have h3 : contRun (⟨.Extension p c, .At⟩ :: ctx) (kn ++ p)
          = run ⟨⟨.Extension p c, .Exiting⟩ :: ctx, kn ++ p⟩ := rfl
      rw [h3, run_exit_ext]
      simp [preorder]
    | Branch ch v =>
      have h1 : loopBody ⟨⟨.Branch ch v, .Entering⟩ :: ctx, kn⟩
          = .YieldNode kn (.Branch ch v)
              ⟨⟨.Branch ch v, .At⟩ :: ctx, kn⟩ := rfl
      have h2 : loopBody ⟨⟨.Branch ch v, .At⟩ :: ctx, kn⟩
          = .Continue ⟨⟨.Branch ch v, .AtChild 0⟩ :: ctx, kn ++ [0]⟩ := rfl
      rw [run_yield h1, run_cont h2]
      have hw' : 20 + slotsList ch ≤ w := by
        simpa [subtreeWeight] using hw
      obtain ⟨hlen, hch⟩ := wfN_branch_parts hwf
      have hslots := run_slots ch v [] (.Branch ch v) (Or.inl ⟨rfl, rfl⟩) hlen
        (fun i c hbi ctx' kn' =>
          have hcw := subtreeWeight_lt_of_branchIndex hbi
          ih (subtreeWeight c) (by omega) c le_rfl
            (wfCh_branchIndex ch i c hch hbi) ctx' kn')
        15 0 (by omega) 0 ctx kn
      simp only [List.append_nil] at hslots
      rw [hslots]
      simp [preorder]
    | NibbledBranch p ch v =>
      have h1 : loopBody ⟨⟨.NibbledBranch p ch v, .Entering⟩ :: ctx, kn⟩
          = .YieldNode kn (.NibbledBranch p ch v)
              ⟨⟨.NibbledBranch p ch v, .At⟩ :: ctx, kn⟩ := rfl
      have h2 : loopBody ⟨⟨.NibbledBranch p ch v, .At⟩ :: ctx, kn⟩
          = .Continue ⟨⟨.NibbledBranch p ch v, .AtChild 0⟩ :: ctx,
              (kn ++ p) ++ [0]⟩ := rfl
      rw [run_yield h1, run_cont h2]
      have hw' : 20 + slotsList ch ≤ w := by
        simpa [subtreeWeight] using hw
      obtain ⟨hlen, hch⟩ := wfN_nibbled_parts hwf
      have hslots := run_slots ch v p (.NibbledBranch p ch v) (Or.inr rfl) hlen
        (fun i c hbi ctx' kn' =>
          have hcw := subtreeWeight_lt_of_branchIndex hbi
          ih (subtreeWeight c) (by omega) c le_rfl
            (wfCh_branchIndex ch i c hch hbi) ctx' kn')
        15 0 (by omega) 0 ctx kn
      rw [hslots]
      simp [preorder]

/-- Entering a frame for `n` at path `kn` traverses exactly the pre-order
listing of `n`'s subtree, then pops into the surrounding context with the
nibble path restored to `kn`. -/
theorem run_entering (n : Node) (hwf : wfN n = true) (ctx : List Crumb)
    (kn : List Nat) :
    run ⟨⟨n, .Entering⟩ :: ctx, kn⟩ = preorder kn n ++ contRun ctx kn :=
  run_entering_aux (subtreeWeight n) n le_rfl hwf ctx kn

/-! ### Small facts about the nibble order -/

theorem nlt_nil (l : List Nat) : nlt l [] = false := by
  cases l <;> rfl

theorem nlt_irrefl : ∀ l : List Nat, nlt l l = false := by
  intro l
  induction l with
  | nil => rfl
  | cons a as ih => simp [nlt, ih]

theorem nlt_append_left : ∀ (pre a b : List Nat),
    nlt (pre ++ a) (pre ++ b) = nlt a b := by
  intro pre
  induction pre with
  | nil => intro a b; rfl
  | cons x xs ih => intro a b; simp [nlt, ih]

theorem nlt_nil_of_ne : ∀ l : List Nat, l ≠ [] → nlt [] l = true := by
  intro l h
  cases l with
  | nil => exact absurd rfl h
  | cons a as => rfl

theorem append_drop_of_isPrefixOf : ∀ (a b : List Nat),
    a.isPrefixOf b = true → a ++ b.drop a.length = b := by
  intro a
  induction a with
  | nil => intro b _; simp
  | cons x xs ih =>
    intro b h
    cases b with
    | nil => simp [List.isPrefixOf] at h
    | cons y ys =>
      have h' : (x == y && xs.isPrefixOf ys) = true := h
      rw [Bool.and_eq_true, beq_iff_eq] at h'
      obtain ⟨hxy, hp⟩ := h'
      subst hxy
      simpa using ih ys hp

theorem isPrefixOf_self : ∀ l : List Nat, l.isPrefixOf l = true := by
  intro l
  induction l with
  | nil => rfl
  | cons a as ih => simpa [List.isPrefixOf] using ih

theorem nlt_append_of_mismatch : ∀ (a b : List Nat),
    a.isPrefixOf b = false → nlt a b = true →
    ∀ t, nlt (a ++ t) b = true := by
  intro a
  induction a with
  | nil => intro b h; simp [List.isPrefixOf] at h
  | cons x xs ih =>
    intro b hpre hlt t
    cases b with
    | nil => simp [nlt] at hlt
    | cons y ys =>
      simp [List.isPrefixOf] at hpre
      simp [nlt] at hlt ⊢
      rcases hlt with hxy | ⟨hxy, hrec⟩
      · exact Or.inl hxy
      · subst hxy
        exact Or.inr ⟨rfl, ih ys (hpre rfl) hrec t⟩

theorem dropWhile_append_right_intact {α : Type} (p : α → Bool) :
    ∀ (X Y : List α), Y.dropWhile p = Y →
      (X ++ Y).dropWhile p = X.dropWhile p ++ Y := by
  intro X
  induction X with
  | nil => intro Y h; simpa using h
  | cons x xs ih =>
    intro Y h
    by_cases hx : p x = true
    · simp [List.dropWhile_cons, hx]
      exact ih Y h
    · simp at hx
      simp [List.dropWhile_cons, hx]

theorem dropWhile_eq_nil_of_all {α : Type} (p : α → Bool) :
    ∀ X : List α, (∀ x ∈ X, p x = true) → X.dropWhile p = [] := by
  intro X
  induction X with
  | nil => intro _; rfl
  | cons x xs ih =>
    intro h
    have hx : p x = true := h x (by simp)
    simp only [List.dropWhile_cons, hx, if_true]
    exact ih (fun y hy => h y (by simp [hy]))

theorem dropWhile_eq_self_of_all_false {α : Type} (p : α → Bool) :
    ∀ X : List α, (∀ x ∈ X, p x = false) → X.dropWhile p = X := by
  intro X hX
  cases X with
  | nil => rfl
  | cons x xs => simp [List.dropWhile_cons, hX x (by simp)]

/-! ### Locating pre-order entries inside the trie -/

theorem SpecPathTo_pslice_extend {n : Node} {q : List Nat} {m : Node}
    (h : SpecPathTo n q m) :
    ∃ t, q ++ m.pslicePart = n.pslicePart ++ t := by
  cases h with
  | here n => exact ⟨[], by simp⟩
  | ext p c m q hsub =>
    exact ⟨q ++ m.pslicePart, by simp [Node.pslicePart]⟩
  | branch ch v i c m q hbi hsub =>
    exact ⟨i :: q ++ m.pslicePart, by simp [Node.pslicePart]⟩
  | nibbled p ch v i c m q hbi hsub =>
    exact ⟨i :: q ++ m.pslicePart, by simp [Node.pslicePart]⟩

theorem preorderCh_pathTo :
    ∀ (r : List (Option Node)),
      (∀ j c, branchIndex r j = some c → ∀ (kn : List Nat) pn,
        pn ∈ preorder kn c → ∃ q, pn.1 = kn ++ q ∧ SpecPathTo c q pn.2) →
      ∀ (i : Nat) (kn : List Nat) pn, pn ∈ preorderCh kn i r →
        ∃ j c q, branchIndex r (j - i) = some c ∧ i ≤ j ∧
          pn.1 = (kn ++ [j]) ++ q ∧ SpecPathTo c q pn.2 := by
  intro r
  induction r with
  | nil => intro _ i kn pn h; simp [preorderCh] at h
  | cons a rtl ih =>
    intro hIH i kn pn h
    have hIH' : ∀ j c, branchIndex rtl j = some c → ∀ (kn : List Nat) pn,
        pn ∈ preorder kn c → ∃ q, pn.1 = kn ++ q ∧ SpecPathTo c q pn.2 := by
      intro j c hbi
      exact hIH (j + 1) c (by simpa [branchIndex, List.getD_cons_succ] using hbi)
    cases a with
    | none =>
      have h' : pn ∈ preorderCh kn (i + 1) rtl := by
        simpa [preorderCh] using h
      obtain ⟨j, c, q, hbi, hij, hp, hs⟩ := ih hIH' (i + 1) kn pn h'
      refine ⟨j, c, q, ?_, by omega, hp, hs⟩
      have hji : j - i = (j - (i + 1)) + 1 := by omega
      rw [hji]
      simpa [branchIndex, List.getD_cons_succ] using hbi
    | some c0 =>
      rw [preorderCh] at h
      rcases List.mem_append.1 h with h' | h'
      · have hbi0 : branchIndex (some c0 :: rtl) 0 = some c0 := rfl
        obtain ⟨q, hp, hs⟩ := hIH 0 c0 hbi0 (kn ++ [i]) pn h'
        exact ⟨i, c0, q, by simp [branchIndex, List.getD], le_rfl, hp, hs⟩
      · obtain ⟨j, c, q, hbi, hij, hp, hs⟩ := ih hIH' (i + 1) kn pn h'
        refine ⟨j, c, q, ?_, by omega, hp, hs⟩
        have hji : j - i = (j - (i + 1)) + 1 := by omega
        rw [hji]
        simpa [branchIndex, List.getD_cons_succ] using hbi

/-- Every entry of the pre-order listing of `n` at `kn` sits at `kn ++ q`
where `q` is a concatenation of partial paths and chosen branch-selector
nibbles leading from `n` to the listed node. -/
theorem preorder_pathTo : ∀ (n : Node) (kn : List Nat) pn,
    pn ∈ preorder kn n → ∃ q, pn.1 = kn ++ q ∧ SpecPathTo n q pn.2 := by
  have main : ∀ w (n : Node), subtreeWeight n ≤ w → ∀ (kn : List Nat) pn,
      pn ∈ preorder kn n → ∃ q, pn.1 = kn ++ q ∧ SpecPathTo n q pn.2 := by
    intro w
    induction w using Nat.strong_induction_on with
    | _ w ih =>
      intro n hw kn pn h
      cases n with
      | Empty =>
        simp [preorder] at h
        subst h
        exact ⟨[], by simp, SpecPathTo.here _⟩
      | Leaf p v =>
        simp [preorder] at h
        subst h
        exact ⟨[], by simp, SpecPathTo.here _⟩
      | Extension p c =>
        rw [preorder] at h
        rcases List.mem_cons.1 h with h' | h'
        · subst h'
          exact ⟨[], by simp, SpecPathTo.here _⟩
        · have hsub : 3 + subtreeWeight c ≤ w := by
            simpa [subtreeWeight] using hw
          obtain ⟨q, hp, hs⟩ :=
            ih (subtreeWeight c) (by omega) c le_rfl (kn ++ p) pn h'
          exact ⟨p ++ q, by simp [hp], SpecPathTo.ext p c pn.2 q hs⟩
      | Branch ch v =>
        rw [preorder] at h
        rcases List.mem_cons.1 h with h' | h'
        · subst h'
          exact ⟨[], by simp, SpecPathTo.here _⟩
        · have hw' : 20 + slotsList ch ≤ w := by
            simpa [subtreeWeight] using hw
          obtain ⟨j, c, q, hbi, -, hp, hs⟩ :=
            preorderCh_pathTo ch
              (fun j c hbi kn' pn' h'' =>
                have hcw := subtreeWeight_lt_of_branchIndex hbi
                ih (subtreeWeight c) (by omega) c le_rfl kn' pn' h'')
              0 kn pn h'
          simp only [Nat.sub_zero] at hbi
          exact ⟨j :: q, by simpa using hp,
            SpecPathTo.branch ch v j c pn.2 q hbi hs⟩
      | NibbledBranch p ch v =>
        rw [preorder] at h
        rcases List.mem_cons.1 h with h' | h'
        · subst h'
          exact ⟨[], by simp, SpecPathTo.here _⟩
        · have hw' : 20 + slotsList ch ≤ w := by
            simpa [subtreeWeight] using hw
          obtain ⟨j, c, q, hbi, -, hp, hs⟩ :=
            preorderCh_pathTo ch
              (fun j c hbi kn' pn' h'' =>
                have hcw := subtreeWeight_lt_of_branchIndex hbi
                ih (subtreeWeight c) (by omega) c le_rfl kn' pn' h'')
              0 (kn ++ p) pn h'
          simp only [Nat.sub_zero] at hbi
          exact ⟨p ++ j :: q, by simpa using hp,
            SpecPathTo.nibbled p ch v j c pn.2 q hbi hs⟩
  exact fun n => main (subtreeWeight n) n le_rfl

/-! ### Seek analysis helpers -/

theorem seekInto_eq : ∀ (ch : List (Option Node)) (i : Nat)
    (s2 : TrieDBNodeIterator) (pk : List Nat),
    seekInto s2 ch i pk =
      (match branchIndex ch i with
       | some c => seekRec s2 c pk
       | none => s2) := by
  intro ch
  induction ch with
  | nil => intro i s2 pk; cases i <;> rfl
  | cons a r ih =>
    intro i s2 pk
    cases i with
    | zero => cases a <;> rfl
    | succ j =>
      have h := ih j s2 pk
      simpa [seekInto, branchIndex, List.getD_cons_succ] using h

theorem branchIndex_some_lt {ch : List (Option Node)} {i : Nat} {c : Node}
    (h : branchIndex ch i = some c) : i < ch.length := by
  by_contra hc
  rw [branchIndex_none_of_le (by omega)] at h
  exact Option.noConfusion h

/-- Lemma `run_slots` extended to arbitrary cursor indices: beyond slot 15 the
frame exits immediately and the remaining listing is empty. -/
theorem run_slots_all (ch : List (Option Node)) (v : Option (List Nat))
    (P : List Nat) (n : Node)
    (hn : (n = .Branch ch v ∧ P = []) ∨ n = .NibbledBranch P ch v)
    (hlen : ch.length = 16)
    (IH : ∀ i c, branchIndex ch i = some c → ∀ ctx kn,
      run ⟨⟨c, .Entering⟩ :: ctx, kn⟩ = preorder kn c ++ contRun ctx kn) :
    ∀ (i x : Nat) (ctx : List Crumb) (kn : List Nat),
      run ⟨⟨n, .AtChild i⟩ :: ctx, (kn ++ P) ++ [x]⟩
        = preorderCh (kn ++ P) i (ch.drop i) ++ contRun ctx kn := by
  intro i x ctx kn
  by_cases hi : i ≤ 15
  · exact run_slots ch v P n hn hlen IH (15 - i) i (by omega) x ctx kn
  · have hbi : branchIndex ch i = none := branchIndex_none_of_le (by omega)
    have hstep : loopBody ⟨⟨n, .AtChild i⟩ :: ctx, (kn ++ P) ++ [x]⟩
        = .Continue ⟨(Crumb.mk n (.AtChild i)).increment :: ctx,
            (kn ++ P) ++ [x]⟩ := by
      rcases hn with ⟨hb, -⟩ | hb <;> subst hb <;> simp [loopBody, hbi]
    have hinc : (Crumb.mk n (.AtChild i)).increment = ⟨n, .Exiting⟩ := by
      rcases hn with ⟨hb, -⟩ | hb <;> subst hb <;>
        simp [Crumb.increment, NIBBLE_LENGTH, show ¬ (i < 15) by omega]
    have hexit : run ⟨⟨n, .Exiting⟩ :: ctx, (kn ++ P) ++ [x]⟩
        = contRun ctx kn := by
      rcases hn with ⟨hb, hP⟩ | hb
      · subst hb; subst hP
        simpa using run_exit_branch ch v ctx kn x
      · subst hb
        exact run_exit_nibbled P ch v ctx kn x
    rw [run_cont hstep, hinc, hexit]
    rw [List.drop_eq_nil_of_le (by omega)]
    simp [preorderCh]

theorem preorderCh_split : ∀ (k : Nat) (r : List (Option Node)) (j : Nat)
    (kn : List Nat),
    preorderCh kn j r
      = preorderCh kn j (r.take k) ++ preorderCh kn (j + k) (r.drop k) := by
  intro k
  induction k with
  | zero => intro r j kn; simp [preorderCh]
  | succ k ihk =>
    intro r j kn
    cases r with
    | nil => simp [preorderCh]
    | cons a rtl =>
      cases a with
      | none =>
        simp only [List.take_succ_cons, List.drop_succ_cons, preorderCh]
        rw [show j + (k + 1) = (j + 1) + k by omega]
        exact ihk rtl (j + 1) kn
      | some c =>
        simp only [List.take_succ_cons, List.drop_succ_cons, preorderCh]
        rw [show j + (k + 1) = (j + 1) + k by omega]
        rw [ihk rtl (j + 1) kn]
        simp [List.append_assoc]

/-- Everything below a node whose partial mismatches the remaining key and
is smaller than it lies strictly before the seek key. -/
theorem seekSkip_all_of_mismatch {slice pk : List Nat}
    (hpre : slice.isPrefixOf pk = false) (hlt : nlt slice pk = true)
    (n : Node) (hps : n.pslicePart = slice) (kn : List Nat) :
    ∀ pn ∈ preorder kn n, seekSkip (kn ++ pk) pn = true := by
  intro pn hm
  obtain ⟨q, hp, hs⟩ := preorder_pathTo n kn pn hm
  obtain ⟨t, ht⟩ := SpecPathTo_pslice_extend hs
  have hfull : fullPathOf pn = kn ++ (slice ++ t) := by
    rw [fullPathOf, hp, List.append_assoc, ht, hps]
  have hn : nlt (fullPathOf pn) (kn ++ pk) = true := by
    rw [hfull, nlt_append_left]
    exact nlt_append_of_mismatch slice pk hpre hlt t
  simp [seekSkip, hn]

/-- Entries of the child slots strictly before the seeked slot lie strictly
before the seek key. -/
theorem seekSkip_all_take (ch : List (Option Node)) (i : Nat)
    (kn pk' : List Nat) :
    ∀ pn ∈ preorderCh kn 0 (ch.take i),
      seekSkip (kn ++ i :: pk') pn = true := by
  intro pn hm
  obtain ⟨j, c, q, hbi, -, hp, hs⟩ :=
    preorderCh_pathTo (ch.take i)
      (fun j c _ kn' pn' h'' => preorder_pathTo c kn' pn' h'') 0 kn pn hm
  simp only [Nat.sub_zero] at hbi
  have hj : j < i := by
    have h1 := branchIndex_some_lt hbi
    have h2 : (ch.take i).length ≤ i := by simp
    omega
  obtain ⟨t, ht⟩ := SpecPathTo_pslice_extend hs
  have hfull : fullPathOf pn = kn ++ (j :: (q ++ pn.2.pslicePart)) := by
    rw [fullPathOf, hp]
    simp
  have hn : nlt (fullPathOf pn) (kn ++ i :: pk') = true := by
    rw [hfull, nlt_append_left]
    simp [nlt, decide_eq_true hj]
  simp [seekSkip, hn]

/-- Entries of the child slots strictly after the seeked slot lie strictly
after the seek key and are not skipped. -/
theorem seekSkip_none_later (ch : List (Option Node)) (i : Nat)
    (kn pk' : List Nat) :
    ∀ pn ∈ preorderCh kn (i + 1) (ch.drop (i + 1)),
      seekSkip (kn ++ i :: pk') pn = false := by
  intro pn hm
  obtain ⟨j, c, q, hbi, hij, hp, hs⟩ :=
    preorderCh_pathTo (ch.drop (i + 1))
      (fun j c _ kn' pn' h'' => preorder_pathTo c kn' pn' h'') (i + 1) kn pn hm
  have hfull : fullPathOf pn = kn ++ (j :: (q ++ pn.2.pslicePart)) := by
    rw [fullPathOf, hp]
    simp
  have hd1 : (decide (j < i) : Bool) = false := by
    simp
    omega
  have hd2 : (decide (j = i) : Bool) = false := by
    simp
    omega
  have h1 : nlt (fullPathOf pn) (kn ++ i :: pk') = false := by
    rw [hfull, nlt_append_left]
    simp [nlt, hd1, hd2]
  have h2 : (fullPathOf pn == kn ++ i :: pk') = false := by
    rw [hfull, beq_eq_false_iff_ne]
    intro he
    have h3 := List.append_cancel_left he
    have h4 : j = i := by
      exact (List.cons.injEq .. ▸ h3).1
    omega
  simp [seekSkip, h1, h2]

theorem dropWhile_append_all {α : Type} (p : α → Bool) :
    ∀ (A B : List α), (∀ a ∈ A, p a = true) →
      (A ++ B).dropWhile p = B.dropWhile p := by
  intro A
  induction A with
  | nil => intro B _; rfl
  | cons a A' ih =>
    intro B h
    simp only [List.cons_append, List.dropWhile_cons, h a (by simp), if_true]
    exact ih B (fun x hx => h x (by simp [hx]))

/-- The seek walk leaves the iterator positioned so that the subsequent
traversal yields exactly the pre-order entries that are not skipped: an
entry is skipped iff its full path is lexicographically smaller than the
key, or it is an Extension whose full path equals the key exactly. -/
theorem seek_run_aux : ∀ w n, subtreeWeight n ≤ w → wfN n = true →
    ∀ (pk : List Nat) (ctx : List Crumb) (kn : List Nat),
      run (seekRec ⟨ctx, kn⟩ n pk)
        = (preorder kn n).dropWhile (seekSkip (kn ++ pk))
            ++ contRun ctx kn := by
  intro w
  induction w using Nat.strong_induction_on with
  | _ w ih =>
    intro n hw hwf pk ctx kn
    cases n with
    | Empty =>
      by_cases hpk : pk = []
      · subst hpk
        have hs : seekRec ⟨ctx, kn⟩ .Empty []
            = ⟨⟨.Empty, .Entering⟩ :: ctx, kn⟩ := rfl
        rw [hs, run_entering Node.Empty rfl]
        have hskip : seekSkip (kn ++ []) (kn, .Empty) = false := by
          simp [seekSkip, fullPathOf, Node.pslicePart, Node.isExt, nlt_irrefl]
        simp only [preorder, List.dropWhile_cons, hskip]
        simp
      · have hs : seekRec ⟨ctx, kn⟩ .Empty pk
            = ⟨⟨.Empty, .Exiting⟩ :: ctx, kn⟩ := by
          simp [seekRec, hpk]
        rw [hs, run_exit_empty]
        have h1 : nlt (fullPathOf (kn, .Empty)) (kn ++ pk) = true := by
          have h2 : nlt (kn ++ []) (kn ++ pk) = true := by
            rw [nlt_append_left]
            exact nlt_nil_of_ne pk hpk
          simpa [fullPathOf, Node.pslicePart] using h2
        have hskip : seekSkip (kn ++ pk) (kn, .Empty) = true := by
          simp [seekSkip, h1]
        simp only [preorder, List.dropWhile_cons, hskip]
        simp
    | Leaf p v =>
      by_cases hlt : nlt p pk = true
      · have hs : seekRec ⟨ctx, kn⟩ (.Leaf p v) pk
            = ⟨⟨.Leaf p v, .Exiting⟩ :: ctx, kn⟩ := by
          simp [seekRec, hlt]
        rw [hs, run_exit_leaf]
        have h1 : nlt (fullPathOf (kn, .Leaf p v)) (kn ++ pk) = true := by
          simpa [fullPathOf, Node.pslicePart, nlt_append_left] using hlt
        have hskip : seekSkip (kn ++ pk) (kn, .Leaf p v) = true := by
          simp [seekSkip, h1]
        simp only [preorder, List.dropWhile_cons, hskip]
        simp
      · have hltf : nlt p pk = false := by simpa using hlt
        have hs : seekRec ⟨ctx, kn⟩ (.Leaf p v) pk
            = ⟨⟨.Leaf p v, .Entering⟩ :: ctx, kn⟩ := by
          simp [seekRec, hltf]
        rw [hs, run_entering (Node.Leaf p v) rfl]
        have hskip : seekSkip (kn ++ pk) (kn, .Leaf p v) = false := by
          simp [seekSkip, fullPathOf, Node.pslicePart, Node.isExt,
            nlt_append_left, hltf]
        simp only [preorder, List.dropWhile_cons, hskip]
        simp
    | Extension p c =>
      obtain ⟨hpne, hwc⟩ := wfN_ext_parts hwf
      by_cases hpre : p.isPrefixOf pk = true
      · have hs : seekRec ⟨ctx, kn⟩ (.Extension p c) pk
            = seekRec ⟨⟨.Extension p c, .At⟩ :: ctx, kn ++ p⟩ c
                (pk.drop p.length) := by
          simp [seekRec, hpre]
        rw [hs]
        have hsub : 3 + subtreeWeight c ≤ w := by
          simpa [subtreeWeight] using hw
        rw [ih (subtreeWeight c) (by omega) c le_rfl hwc (pk.drop p.length)
          (⟨.Extension p c, .At⟩ :: ctx) (kn ++ p)]
        have h3 : contRun (⟨.Extension p c, .At⟩ :: ctx) (kn ++ p)
            = run ⟨⟨.Extension p c, .Exiting⟩ :: ctx, kn ++ p⟩ := rfl
        rw [h3, run_exit_ext]
        have hkey : (kn ++ p) ++ pk.drop p.length = kn ++ pk := by
          rw [List.append_assoc, append_drop_of_isPrefixOf p pk hpre]
        rw [hkey]
        have hskip : seekSkip (kn ++ pk) (kn, .Extension p c) = true := by
          by_cases hnil : pk.drop p.length = []
          · have hppk : p = pk := by
              have h4 := append_drop_of_isPrefixOf p pk hpre
              rw [hnil, List.append_nil] at h4
              exact h4
            subst hppk
            simp [seekSkip, fullPathOf, Node.pslicePart, Node.isExt,
              nlt_irrefl]
          · have h1 : nlt (kn ++ p) (kn ++ pk) = true := by
              calc nlt (kn ++ p) (kn ++ pk)
                  = nlt ((kn ++ p) ++ []) ((kn ++ p) ++ pk.drop p.length) := by
                    rw [List.append_nil, hkey]
                _ = nlt [] (pk.drop p.length) := nlt_append_left _ _ _
                _ = true := nlt_nil_of_ne _ hnil
            simp [seekSkip, fullPathOf, Node.pslicePart, h1]
        simp only [preorder, List.dropWhile_cons, hskip, if_true]
      · have hpref : p.isPrefixOf pk = false := Bool.eq_false_iff.mpr hpre
        by_cases hlt : nlt p pk = true
        · have hs : seekRec ⟨ctx, kn⟩ (.Extension p c) pk
              = ⟨⟨.Extension p c, .Exiting⟩ :: ctx, kn ++ p⟩ := by
            simp [seekRec, hpref, hlt]
          rw [hs, run_exit_ext]
          have hall := seekSkip_all_of_mismatch hpref hlt (.Extension p c)
            rfl kn
          rw [dropWhile_eq_nil_of_all _ _ hall]
          simp
        · have hltf : nlt p pk = false := by simpa using hlt
          have hs : seekRec ⟨ctx, kn⟩ (.Extension p c) pk
              = ⟨⟨.Extension p c, .Entering⟩ :: ctx, kn⟩ := by
            simp [seekRec, hpref, hltf]
          rw [hs, run_entering _ hwf]
          have h1 : nlt (kn ++ p) (kn ++ pk) = false := by
            rw [nlt_append_left]
            exact hltf
          have h2 : (kn ++ p == kn ++ pk) = false := by
            rw [beq_eq_false_iff_ne]
            intro he
            have h4 := List.append_cancel_left he
            rw [h4, isPrefixOf_self] at hpref
            exact Bool.noConfusion hpref
          have hskip : seekSkip (kn ++ pk) (kn, .Extension p c) = false := by
            simp [seekSkip, fullPathOf, Node.pslicePart, Node.isExt, h1, h2]
          simp only [preorder, List.dropWhile_cons, hskip]
          simp
    | Branch ch v =>
      obtain ⟨hlen, hch⟩ := wfN_branch_parts hwf
      have hIHc : ∀ i c, branchIndex ch i = some c → ∀ ctx' kn',
          run ⟨⟨c, .Entering⟩ :: ctx', kn'⟩
            = preorder kn' c ++ contRun ctx' kn' :=
        fun i c hbi ctx' kn' =>
          run_entering c (wfCh_branchIndex ch i c hch hbi) ctx' kn'
      cases pk with
      | nil =>
        have hs : seekRec ⟨ctx, kn⟩ (.Branch ch v) []
            = ⟨⟨.Branch ch v, .Entering⟩ :: ctx, kn⟩ := rfl
        rw [hs, run_entering _ hwf]
        have hskip : seekSkip (kn ++ []) (kn, .Branch ch v) = false := by
          simp [seekSkip, fullPathOf, Node.pslicePart, Node.isExt, nlt_irrefl]
        simp only [preorder, List.dropWhile_cons, hskip]
        simp
      | cons i pk' =>
        have hs : seekRec ⟨ctx, kn⟩ (.Branch ch v) (i :: pk')
            = seekInto ⟨⟨.Branch ch v, .AtChild i⟩ :: ctx, kn ++ [i]⟩
                ch i pk' := rfl
        rw [hs, seekInto_eq]
        have h1 : nlt (fullPathOf (kn, .Branch ch v)) (kn ++ i :: pk')
            = true := by
          have h2 : nlt (kn ++ []) (kn ++ i :: pk') = true := by
            rw [nlt_append_left]
            rfl
          simpa [fullPathOf, Node.pslicePart] using h2
        have hskiphead : seekSkip (kn ++ i :: pk') (kn, .Branch ch v)
            = true := by
          simp [seekSkip, h1]
        rcases hbi : branchIndex ch i with _ | c
        · have hrun := run_slots_all ch v [] (.Branch ch v)
            (Or.inl ⟨rfl, rfl⟩) hlen hIHc i i ctx kn
          simp only [List.append_nil] at hrun
          rw [hrun]
          by_cases hi : i < 16
          · have hd : ch.drop i = none :: ch.drop (i + 1) := by
              have h5 := branchIndex_drop (show i < ch.length by omega)
              rw [hbi] at h5
              exact h5
            have hrun2 : preorderCh kn i (ch.drop i)
                = preorderCh kn (i + 1) (ch.drop (i + 1)) := by
              rw [hd]
              simp [preorderCh]
            have hall := seekSkip_all_take ch i kn pk'
            have hlater := seekSkip_none_later ch i kn pk'
            have hintact := dropWhile_eq_self_of_all_false _ _ hlater
            have hdw : (preorder kn (.Branch ch v)).dropWhile
                (seekSkip (kn ++ i :: pk'))
                = preorderCh kn (i + 1) (ch.drop (i + 1)) := by
              simp only [preorder, List.dropWhile_cons, hskiphead, if_true]
              rw [preorderCh_split i ch 0 kn, Nat.zero_add,
                dropWhile_append_all _ _ _ hall, hrun2]
              exact hintact
            rw [hdw, hrun2]
          · have hd : ch.drop i = [] := List.drop_eq_nil_of_le (by omega)
            have htk : ch.take i = ch := List.take_of_length_le (by omega)
            have hall : ∀ pn ∈ preorderCh kn 0 ch,
                seekSkip (kn ++ i :: pk') pn = true := by
              intro pn hm
              exact seekSkip_all_take ch i kn pk' pn (by rw [htk]; exact hm)
            have hdw : (preorder kn (.Branch ch v)).dropWhile
                (seekSkip (kn ++ i :: pk')) = [] := by
              simp only [preorder, List.dropWhile_cons, hskiphead, if_true]
              exact dropWhile_eq_nil_of_all _ _ hall
            rw [hd, hdw]
            simp [preorderCh]
        · have hi16 : i < 16 := by
            have h6 := branchIndex_some_lt hbi
            omega
          have hw' : 20 + slotsList ch ≤ w := by
            simpa [subtreeWeight] using hw
          have hcw := subtreeWeight_lt_of_branchIndex hbi
          rw [ih (subtreeWeight c) (by omega) c le_rfl
            (wfCh_branchIndex ch i c hch hbi) pk'
            (⟨.Branch ch v, .AtChild i⟩ :: ctx) (kn ++ [i])]
          have hkey : (kn ++ [i]) ++ pk' = kn ++ i :: pk' := by simp
          rw [hkey]
          have h3 : contRun (⟨.Branch ch v, .AtChild i⟩ :: ctx) (kn ++ [i])
              = run ⟨(Crumb.mk (.Branch ch v) (.AtChild i)).increment :: ctx,
                  kn ++ [i]⟩ := rfl
          rw [h3]
          have hcont : run ⟨(Crumb.mk (.Branch ch v)
                (.AtChild i)).increment :: ctx, kn ++ [i]⟩
              = preorderCh kn (i + 1) (ch.drop (i + 1)) ++ contRun ctx kn := by
            by_cases h15 : i < 15
            · have hinc : (Crumb.mk (.Branch ch v) (.AtChild i)).increment
                  = ⟨.Branch ch v, .AtChild (i + 1)⟩ := by
                simp [Crumb.increment, NIBBLE_LENGTH, h15]
              rw [hinc]
              have h7 := run_slots_all ch v [] (.Branch ch v)
                (Or.inl ⟨rfl, rfl⟩) hlen hIHc (i + 1) i ctx kn
              simpa using h7
            · have hi15 : i = 15 := by omega
              subst hi15
              have hinc : (Crumb.mk (.Branch ch v) (.AtChild 15)).increment
                  = ⟨.Branch ch v, .Exiting⟩ := by
                simp [Crumb.increment, NIBBLE_LENGTH]
              rw [hinc, run_exit_branch]
              rw [List.drop_eq_nil_of_le (by omega)]
              simp [preorderCh]
          rw [hcont]
          have hd : ch.drop i = some c :: ch.drop (i + 1) := by
            have h8 := branchIndex_drop (show i < ch.length by omega)
            rw [hbi] at h8
            exact h8
          have hall := seekSkip_all_take ch i kn pk'
          have hlater := seekSkip_none_later ch i kn pk'
          have hintact := dropWhile_eq_self_of_all_false _ _ hlater
          have hdw : (preorder kn (.Branch ch v)).dropWhile
              (seekSkip (kn ++ i :: pk'))
              = (preorder (kn ++ [i]) c).dropWhile (seekSkip (kn ++ i :: pk'))
                ++ preorderCh kn (i + 1) (ch.drop (i + 1)) := by
            simp only [preorder, List.dropWhile_cons, hskiphead, if_true]
            rw [preorderCh_split i ch 0 kn, Nat.zero_add,
              dropWhile_append_all _ _ _ hall, hd]
            simp only [preorderCh]
            exact dropWhile_append_right_intact _ _ _ hintact
          rw [hdw, List.append_assoc]
    | NibbledBranch p0 ch v =>
      obtain ⟨hlen, hch⟩ := wfN_nibbled_parts hwf
      have hIHc : ∀ i c, branchIndex ch i = some c → ∀ ctx' kn',
          run ⟨⟨c, .Entering⟩ :: ctx', kn'⟩
            = preorder kn' c ++ contRun ctx' kn' :=
        fun i c hbi ctx' kn' =>
          run_entering c (wfCh_branchIndex ch i c hch hbi) ctx' kn'
      by_cases hpre : p0.isPrefixOf pk = true
      · have hdrop := append_drop_of_isPrefixOf p0 pk hpre
        rcases hpk' : pk.drop p0.length with _ | ⟨i, pk''⟩
        · have hppk : p0 = pk := by
            rw [hpk', List.append_nil] at hdrop
            exact hdrop
          have hs : seekRec ⟨ctx, kn⟩ (.NibbledBranch p0 ch v) pk
              = ⟨⟨.NibbledBranch p0 ch v, .Entering⟩ :: ctx, kn⟩ := by
            simp [seekRec, hpre, hpk']
          rw [hs, run_entering _ hwf]
          have hskip : seekSkip (kn ++ pk) (kn, .NibbledBranch p0 ch v)
              = false := by
            subst hppk
            simp [seekSkip, fullPathOf, Node.pslicePart, Node.isExt,
              nlt_irrefl]
          simp only [preorder, List.dropWhile_cons, hskip]
          simp
        · have hkey : kn ++ pk = ((kn ++ p0) ++ [i]) ++ pk'' := by
            rw [← hdrop, hpk']
            simp
          have hkey2 : kn ++ pk = (kn ++ p0) ++ i :: pk'' := by
            rw [hkey]
            simp
          have hs : seekRec ⟨ctx, kn⟩ (.NibbledBranch p0 ch v) pk
              = seekInto ⟨⟨.NibbledBranch p0 ch v, .AtChild i⟩ :: ctx,
                  (kn ++ p0) ++ [i]⟩ ch i pk'' := by
            simp [seekRec, hpre, hpk']
          rw [hs, seekInto_eq]
          have h1 : nlt (fullPathOf (kn, .NibbledBranch p0 ch v))
              (kn ++ pk) = true := by
            have h2 : nlt ((kn ++ p0) ++ []) ((kn ++ p0) ++ i :: pk'')
                = true := by
              rw [nlt_append_left]
              rfl
            rw [hkey2]
            simpa [fullPathOf, Node.pslicePart] using h2
          have hskiphead : seekSkip (kn ++ pk) (kn, .NibbledBranch p0 ch v)
              = true := by
            simp [seekSkip, h1]
          rcases hbi : branchIndex ch i with _ | c
          · have hrun := run_slots_all ch v p0 (.NibbledBranch p0 ch v)
              (Or.inr rfl) hlen hIHc i i ctx kn
            rw [hrun]
            by_cases hi : i < 16
            · have hd : ch.drop i = none :: ch.drop (i + 1) := by
                have h5 := branchIndex_drop (show i < ch.length by omega)
                rw [hbi] at h5
                exact h5
              have hrun2 : preorderCh (kn ++ p0) i (ch.drop i)
                  = preorderCh (kn ++ p0) (i + 1) (ch.drop (i + 1)) := by
                rw [hd]
                simp [preorderCh]
              have hall := seekSkip_all_take ch i (kn ++ p0) pk''
              have hlater := seekSkip_none_later ch i (kn ++ p0) pk''
              have hintact := dropWhile_eq_self_of_all_false _ _ hlater
              have hdw : (preorder kn (.NibbledBranch p0 ch v)).dropWhile
                  (seekSkip (kn ++ pk))
                  = preorderCh (kn ++ p0) (i + 1) (ch.drop (i + 1)) := by
                simp only [preorder, List.dropWhile_cons, hskiphead, if_true]
                rw [hkey2]
                rw [preorderCh_split i ch 0 (kn ++ p0), Nat.zero_add,
                  dropWhile_append_all _ _ _ hall, hrun2]
                exact hintact
              rw [hdw, hrun2]
            · have hd : ch.drop i = [] := List.drop_eq_nil_of_le (by omega)
              have htk : ch.take i = ch := List.take_of_length_le (by omega)
              have hall : ∀ pn ∈ preorderCh (kn ++ p0) 0 ch,
                  seekSkip ((kn ++ p0) ++ i :: pk'') pn = true := by
                intro pn hm
                exact seekSkip_all_take ch i (kn ++ p0) pk'' pn
                  (by rw [htk]; exact hm)
              have hdw : (preorder kn (.NibbledBranch p0 ch v)).dropWhile
                  (seekSkip (kn ++ pk)) = [] := by
                simp only [preorder, List.dropWhile_cons, hskiphead, if_true]
                rw [hkey2]
                exact dropWhile_eq_nil_of_all _ _ hall
              rw [hd, hdw]
              simp [preorderCh]
          · have hi16 : i < 16 := by
              have h6 := branchIndex_some_lt hbi
              omega
            have hw' : 20 + slotsList ch ≤ w := by
              simpa [subtreeWeight] using hw
            have hcw := subtreeWeight_lt_of_branchIndex hbi
            rw [ih (subtreeWeight c) (by omega) c le_rfl
              (wfCh_branchIndex ch i c hch hbi) pk''
              (⟨.NibbledBranch p0 ch v, .AtChild i⟩ :: ctx)
              ((kn ++ p0) ++ [i])]
            rw [← hkey]
            have h3 : contRun (⟨.NibbledBranch p0 ch v, .AtChild i⟩ :: ctx)
                ((kn ++ p0) ++ [i])
                = run ⟨(Crumb.mk (.NibbledBranch p0 ch v)
                    (.AtChild i)).increment :: ctx, (kn ++ p0) ++ [i]⟩ := rfl
            rw [h3]
            have hcont : run ⟨(Crumb.mk (.NibbledBranch p0 ch v)
                  (.AtChild i)).increment :: ctx, (kn ++ p0) ++ [i]⟩
                = preorderCh (kn ++ p0) (i + 1) (ch.drop (i + 1))
                    ++ contRun ctx kn := by
              by_cases h15 : i < 15
              · have hinc : (Crumb.mk (.NibbledBranch p0 ch v)
                      (.AtChild i)).increment
                    = ⟨.NibbledBranch p0 ch v, .AtChild (i + 1)⟩ := by
                  simp [Crumb.increment, NIBBLE_LENGTH, h15]
                rw [hinc]
                exact run_slots_all ch v p0 (.NibbledBranch p0 ch v)
                  (Or.inr rfl) hlen hIHc (i + 1) i ctx kn
              · have hi15 : i = 15 := by omega
                subst hi15
                have hinc : (Crumb.mk (.NibbledBranch p0 ch v)
                      (.AtChild 15)).increment
                    = ⟨.NibbledBranch p0 ch v, .Exiting⟩ := by
                  simp [Crumb.increment, NIBBLE_LENGTH]
                rw [hinc, run_exit_nibbled]
                rw [List.drop_eq_nil_of_le (by omega)]
                simp [preorderCh]
            rw [hcont]
            have hd : ch.drop i = some c :: ch.drop (i + 1) := by
              have h8 := branchIndex_drop (show i < ch.length by omega)
              rw [hbi] at h8
              exact h8
            have hall := seekSkip_all_take ch i (kn ++ p0) pk''
            have hlater := seekSkip_none_later ch i (kn ++ p0) pk''
            have hintact := dropWhile_eq_self_of_all_false _ _ hlater
            have hdw : (preorder kn (.NibbledBranch p0 ch v)).dropWhile
                (seekSkip (kn ++ pk))
                = (preorder ((kn ++ p0) ++ [i]) c).dropWhile
                    (seekSkip (kn ++ pk))
                  ++ preorderCh (kn ++ p0) (i + 1) (ch.drop (i + 1)) := by
              simp only [preorder, List.dropWhile_cons, hskiphead, if_true]
              rw [hkey2]
              rw [preorderCh_split i ch 0 (kn ++ p0), Nat.zero_add,
                dropWhile_append_all _ _ _ hall, hd]
              simp only [preorderCh]
              exact dropWhile_append_right_intact _ _ _ hintact
            rw [hdw]
            simp [List.append_assoc]
      · have hpref : p0.isPrefixOf pk = false := Bool.eq_false_iff.mpr hpre
        by_cases hlt : nlt p0 pk = true
        · have hs : seekRec ⟨ctx, kn⟩ (.NibbledBranch p0 ch v) pk
              = ⟨⟨.NibbledBranch p0 ch v, .Exiting⟩ :: ctx,
                  (kn ++ p0) ++ [NIBBLE_LENGTH - 1]⟩ := by
            simp [seekRec, hpref, hlt]
          rw [hs, run_exit_nibbled]
          have hall := seekSkip_all_of_mismatch hpref hlt
            (.NibbledBranch p0 ch v) rfl kn
          rw [dropWhile_eq_nil_of_all _ _ hall]
          simp
        · have hltf : nlt p0 pk = false := by simpa using hlt
          have hs : seekRec ⟨ctx, kn⟩ (.NibbledBranch p0 ch v) pk
              = ⟨⟨.NibbledBranch p0 ch v, .Entering⟩ :: ctx, kn⟩ := by
            simp [seekRec, hpref, hltf]
          rw [hs, run_entering _ hwf]
          have h1 : nlt (kn ++ p0) (kn ++ pk) = false := by
            rw [nlt_append_left]
            exact hltf
          have hskip : seekSkip (kn ++ pk) (kn, .NibbledBranch p0 ch v)
              = false := by
            simp [seekSkip, fullPathOf, Node.pslicePart, Node.isExt, h1]
          simp only [preorder, List.dropWhile_cons, hskip]
          simp

/-! ### Claims settled without the seek analysis -/

/-- Claim C4: `Crumb::increment` follows the spec's cursor transition table:
Entering goes to Exiting for Empty/Leaf and to At for
Extension/Branch/NibbledBranch; At goes to Exiting for Empty/Leaf/Extension
and to AtChild 0 for Branch/NibbledBranch; AtChild i with i < 15 goes to
AtChild (i+1) on Branch/NibbledBranch; AtChild 15 goes to Exiting; Exiting
is terminal. -/
theorem claim_C4 :
    ((Crumb.mk .Empty .Entering).increment.status = .Exiting)
  ∧ (∀ p v, (Crumb.mk (.Leaf p v) .Entering).increment.status = .Exiting)
  ∧ (∀ p c, (Crumb.mk (.Extension p c) .Entering).increment.status = .At)
  ∧ (∀ ch v, (Crumb.mk (.Branch ch v) .Entering).increment.status = .At)
  ∧ (∀ p ch v,
      (Crumb.mk (.NibbledBranch p ch v) .Entering).increment.status = .At)
  ∧ ((Crumb.mk .Empty .At).increment.status = .Exiting)
  ∧ (∀ p v, (Crumb.mk (.Leaf p v) .At).increment.status = .Exiting)
  ∧ (∀ p c, (Crumb.mk (.Extension p c) .At).increment.status = .Exiting)
  ∧ (∀ ch v, (Crumb.mk (.Branch ch v) .At).increment.status = .AtChild 0)
  ∧ (∀ p ch v,
      (Crumb.mk (.NibbledBranch p ch v) .At).increment.status = .AtChild 0)
  ∧ (∀ i, i < 15 →
      (∀ ch v, (Crumb.mk (.Branch ch v) (.AtChild i)).increment.status
          = .AtChild (i + 1))
    ∧ (∀ p ch v,
        (Crumb.mk (.NibbledBranch p ch v) (.AtChild i)).increment.status
          = .AtChild (i + 1)))
  ∧ (∀ ch v,
      (Crumb.mk (.Branch ch v) (.AtChild 15)).increment.status = .Exiting)
  ∧ (∀ p ch v,
      (Crumb.mk (.NibbledBranch p ch v) (.AtChild 15)).increment.status
        = .Exiting)
  ∧ (∀ n, (Crumb.mk n .Exiting).increment = Crumb.mk n .Exiting) := by
  refine ⟨rfl, fun p v => rfl, fun p c => rfl, fun ch v => rfl,
    fun p ch v => rfl, rfl, fun p v => rfl, fun p c => rfl,
    fun ch v => rfl, fun p ch v => rfl,
    fun i hi => ⟨fun ch v => ?_, fun p ch v => ?_⟩,
    fun ch v => ?_, fun p ch v => ?_, fun n => ?_⟩
  · simp [Crumb.increment, NIBBLE_LENGTH, hi]
  · simp [Crumb.increment, NIBBLE_LENGTH, hi]
  · simp [Crumb.increment, NIBBLE_LENGTH]
  · simp [Crumb.increment, NIBBLE_LENGTH]
  · cases n <;> rfl

/-- Witness for C4 at a concrete cursor below 15. -/
theorem claim_C4_witness :
    3 < 15
  ∧ (Crumb.mk (.Branch [] none) (.AtChild 3)).increment.status = .AtChild 4 :=
  ⟨by decide,
    (claim_C4.2.2.2.2.2.2.2.2.2.2.1 3 (by decide)).1 [] none⟩

/-- Claim C6: when `next()` or `seek()` surfaces a codec decode failure, the
returned error is `DecoderError (hash, detail)` where `hash` is the hash of
the rejected encoded bytes (iterator.rs 96-101 and 305-313). -/
theorem claim_C6 :
    (∀ (hash : List Nat → Nat) (decode : List Nat → Except Nat Node)
        (data : List Nat) (e : Nat), decode data = .error e →
      seekDecodeStep hash decode data
        = .error (.DecoderError (hash data) e))
  ∧ (∀ (hash : List Nat → Nat) (decode : List Nat → Except Nat Node)
        (data : List Nat) (e : Nat), decode data = .error e →
      nextDecodeStep hash decode (.ok data)
        = .error (.DecoderError (hash data) e)) := by
  constructor
  · intro hash decode data e h
    simp [seekDecodeStep, h]
  · intro hash decode data e h
    simp [nextDecodeStep, h]

/-- Witness for C6 with a concrete hash function and failing decoder. -/
theorem claim_C6_witness :
    ((fun (_ : List Nat) => (.error 5 : Except Nat Node)) [1, 2] = .error 5)
  ∧ seekDecodeStep (fun l => l.length) (fun _ => .error 5) [1, 2]
      = .error (.DecoderError 2 5) :=
  ⟨rfl, claim_C6.1 (fun l => l.length) (fun _ => .error 5) [1, 2] 5 rfl⟩

/-- Claim C8: over an empty trie a fresh iterator yields exactly
`(path [], Empty)` and then `next()` returns `None`; after `seek("")` it
again yields Empty at the empty path; and after a seek on any non-empty
byte key (such as the single byte 0x00) the next call to `next()` returns
`None`. -/
theorem claim_C8 :
    run (newState .Empty) = [([], .Empty)]
  ∧ next (newState .Empty)
      = .Yielded [] .Empty ⟨[⟨.Empty, .Exiting⟩], []⟩
  ∧ next ⟨[⟨.Empty, .Exiting⟩], []⟩ = .Exhausted ⟨[], []⟩
  ∧ seekState .Empty (bytesToNibbles []) = newState .Empty
  ∧ (∀ key : List Nat, key ≠ [] →
      run (seekState .Empty (bytesToNibbles key)) = []
    ∧ next (seekState .Empty (bytesToNibbles key))
        = .Exhausted ⟨[], []⟩) := by
  refine ⟨rfl, rfl, rfl, rfl, ?_⟩
  intro key hk
  have hnn : bytesToNibbles key ≠ [] := by
    cases key with
    | nil => exact absurd rfl hk
    | cons b bs => simp [bytesToNibbles]
  have hs : seekState .Empty (bytesToNibbles key)
      = ⟨[⟨.Empty, .Exiting⟩], []⟩ := by
    simp [seekState, seekRec, hnn]
  rw [hs]
  exact ⟨rfl, rfl⟩

/-- Witness for C8 at the non-empty key 0x00 of the claim's example. -/
theorem claim_C8_witness :
    ([0x00] : List Nat) ≠ []
  ∧ run (seekState .Empty (bytesToNibbles [0x00])) = []
  ∧ next (seekState .Empty (bytesToNibbles [0x00])) = .Exhausted ⟨[], []⟩ :=
  ⟨by decide, (claim_C8.2.2.2.2 [0x00] (by decide)).1,
    (claim_C8.2.2.2.2 [0x00] (by decide)).2⟩

/-- Claim C9: every call to `next()` terminates: for every iterator state,
`trailWeight s.trail + 1` loop iterations suffice to yield a node, return an
error, or return `None` — the per-frame cursor progresses monotonically to
Exiting, pops strictly reduce the stack and descents only target present
children, which is what the weight measure counts. -/
theorem claim_C9 (s : TrieDBNodeIterator) :
    (nextF (trailWeight s.trail + 1) s).isSome = true :=
  nextF_isSome_of_lt _ s (Nat.lt_succ_self _)

/-- Claim C10: the iterator is fused: with an empty frame stack `next()`
returns `None` and leaves the stack empty; whenever `next()` returns `None`
the resulting stack is empty, so every subsequent `next()` (without an
intervening seek) also returns `None`. -/
theorem claim_C10 :
    (∀ kn : List Nat, next ⟨[], kn⟩ = .Exhausted ⟨[], kn⟩)
  ∧ (∀ s s', next s = .Exhausted s' → s'.trail = [])
  ∧ (∀ s s', next s = .Exhausted s' → next s' = .Exhausted s') := by
  have h1 : ∀ kn : List Nat, next ⟨[], kn⟩ = .Exhausted ⟨[], kn⟩ :=
    fun kn => rfl
  have h2 : ∀ s s', next s = .Exhausted s' → s'.trail = [] := by
    intro s s' h
    unfold next at h
    rcases hnf : nextF (trailWeight s.trail + 1) s with _ | r
    · rw [hnf] at h
      exact NextRes.noConfusion h
    · rw [hnf] at h
      simp only [Option.getD_some] at h
      subst h
      exact nextF_exhausted_trail _ s s' hnf
  refine ⟨h1, h2, ?_⟩
  intro s s' h
  have ht := h2 s s' h
  obtain ⟨tr, kn⟩ := s'
  simp only at ht
  subst ht
  exact h1 kn

/-- Witness for C10 chaining two exhausted calls. -/
theorem claim_C10_witness :
    next (⟨[], []⟩ : TrieDBNodeIterator) = .Exhausted ⟨[], []⟩
  ∧ (⟨[], []⟩ : TrieDBNodeIterator).trail = [] :=
  ⟨claim_C10.1 [], claim_C10.2.1 ⟨[], []⟩ ⟨[], []⟩ (claim_C10.1 [])⟩

/-- Claim C2: over a well-formed trie (16-slot child arrays, non-empty
Extension partials, as the codec guarantees) a full traversal by repeated
`next()` from a fresh iterator yields exactly the pre-order listing of the
trie: every reachable node exactly once, parents before descendants,
siblings in ascending nibble order, and only nodes are yielded. -/
theorem claim_C2 (root : Node) (hwf : wfN root = true) :
    run (newState root) = preorder [] root := by
  have h := run_entering root hwf [] []
  simpa [newState, contRun] using h

/-- Witness for C2 on the test trie of the source. -/
theorem claim_C2_witness :
    wfN exTrie = true ∧ run (newState exTrie) = preorder [] exTrie :=
  ⟨rfl, claim_C2 exTrie rfl⟩

/-- Claim C5: seeking the empty byte string restores the iterator to its
initial state, hence the subsequent full traversal yields the same sequence
as a fresh iterator. -/
theorem claim_C5 (root : Node) (hwf : wfN root = true) :
    seekState root (bytesToNibbles []) = newState root
  ∧ run (seekState root (bytesToNibbles []))
      = run (newState root) := by
  have h : seekState root [] = newState root := by
    cases root with
    | Empty => rfl
    | Leaf p v =>
      simp [seekState, seekRec, nlt_nil, newState]
    | Extension p c =>
      have hp := (wfN_ext_parts hwf).1
      have hpre : p.isPrefixOf ([] : List Nat) = false := by
        cases p with
        | nil => exact absurd rfl hp
        | cons a as => rfl
      simp [seekState, seekRec, hpre, nlt_nil, newState]
    | Branch ch v => rfl
    | NibbledBranch p ch v =>
      cases p with
      | nil => rfl
      | cons a as =>
        have hpre : (a :: as).isPrefixOf ([] : List Nat) = false := rfl
        simp [seekState, seekRec, hpre, nlt_nil, newState]
  have h0 : bytesToNibbles [] = [] := rfl
  rw [h0, h]
  exact ⟨rfl, rfl⟩

/-- Witness for C5 on the test trie of the source. -/
theorem claim_C5_witness :
    wfN exTrie = true
  ∧ seekState exTrie (bytesToNibbles []) = newState exTrie :=
  ⟨rfl, (claim_C5 exTrie rfl).1⟩

/-! ### Claims about seek -/

theorem mem_of_mem_dropWhile {α : Type} (p : α → Bool) :
    ∀ (l : List α) (a : α), a ∈ l.dropWhile p → a ∈ l := by
  intro l
  induction l with
  | nil => intro a h; simpa using h
  | cons x xs ih =>
    intro a h
    rw [List.dropWhile_cons] at h
    by_cases hx : p x = true
    · simp only [hx, if_true] at h
      exact List.mem_cons_of_mem _ (ih a h)
    · simp only [hx, if_false] at h
      exact h

theorem run_newState (root : Node) (hwf : wfN root = true) :
    run (newState root) = preorder [] root := by
  have h := run_entering root hwf [] []
  simpa [newState, contRun] using h

/-- The public seek positions the iterator on the dropWhile suffix of the
pre-order listing. -/
theorem seek_run (root : Node) (hwf : wfN root = true) (key : List Nat) :
    run (seekState root key)
      = (preorder [] root).dropWhile (seekSkip key) := by
  have h := seek_run_aux (subtreeWeight root) root le_rfl hwf key [] []
  simpa [seekState, contRun] using h

/-- Counterexample to the literal reading of C1: on a trie whose root is an
Extension with full path exactly equal to the seek key, seek descends
through the Extension, so the Extension — whose full path is not smaller
than the key — is skipped by the subsequent traversal. -/
theorem claim_C1_counterexample :
    ¬ (run (seekState exTrieC1 (bytesToNibbles [0x01]))
        = (preorder [] exTrieC1).dropWhile
            (seekSkipClaim (bytesToNibbles [0x01]))) := by
  intro h
  exact absurd (congrArg List.length h) (by decide)

/-- Claim C1 (amended): after a successful seek(K) the subsequent traversal
yields exactly the pre-order entries from the first node whose full path is
greater than or equal to K onward — except that an Extension node whose
full path equals K exactly is also skipped (seek descends through it to its
child); no node with full path greater than K, and no non-Extension node
with full path equal to K, is skipped. -/
theorem claim_C1 (root : Node) (hwf : wfN root = true) (key : List Nat) :
    run (seekState root (bytesToNibbles key))
      = (preorder [] root).dropWhile (seekSkip (bytesToNibbles key)) :=
  seek_run root hwf (bytesToNibbles key)

/-- Witness for C1 reproducing the source's seek test. -/
theorem claim_C1_witness :
    wfN exTrie = true
  ∧ run (seekState exTrie (bytesToNibbles [0x00]))
      = (preorder [] exTrie).dropWhile (seekSkip (bytesToNibbles [0x00])) :=
  ⟨rfl, claim_C1 exTrie rfl [0x00]⟩

/-- Claim C3: at every yield of `next()` — from a fresh iterator or after
any seek — the reported nibble path equals the concatenation of the partial
paths and chosen branch-selector nibbles from the root to the yielded node
(the relation `SpecPathTo`). -/
theorem claim_C3 (root : Node) (hwf : wfN root = true) :
    (∀ pn ∈ run (newState root), SpecPathTo root pn.1 pn.2)
  ∧ (∀ (key : List Nat) (pn : List Nat × Node),
      pn ∈ run (seekState root (bytesToNibbles key)) →
      SpecPathTo root pn.1 pn.2) := by
  have hfresh : ∀ pn ∈ preorder [] root, SpecPathTo root pn.1 pn.2 := by
    intro pn hm
    obtain ⟨q, hp, hs⟩ := preorder_pathTo root [] pn hm
    have hq : pn.1 = q := by simpa using hp
    rw [hq]
    exact hs
  constructor
  · intro pn hm
    rw [run_newState root hwf] at hm
    exact hfresh pn hm
  · intro key pn hm
    rw [seek_run root hwf] at hm
    exact hfresh pn (mem_of_mem_dropWhile _ _ _ hm)

/-- Witness for C3 on the test trie of the source. -/
theorem claim_C3_witness :
    wfN exTrie = true
  ∧ (([], exTrie) ∈ run (newState exTrie))
  ∧ SpecPathTo exTrie [] exTrie := by
  have h : run (newState exTrie)
      = ([], exTrie) :: (run (newState exTrie)).tail := rfl
  have hm : ([], exTrie) ∈ run (newState exTrie) := by
    rw [h]
    exact List.mem_cons_self _ _
  exact ⟨rfl, hm, (claim_C3 exTrie rfl).1 ([], exTrie) hm⟩

/-- Claim C7: the sentinel nibble 15 pushed by seek on a NibbledBranch
mismatch is never observable to clients: every `(path, node)` pair yielded
after any seek is an entry of the clean pre-order listing of the trie — the
NibbledBranch frame's Exiting pop strips exactly the partial plus the
sentinel before any yield. -/
theorem claim_C7 (root : Node) (hwf : wfN root = true) (key : List Nat)
    (pn : List Nat × Node)
    (hm : pn ∈ run (seekState root (bytesToNibbles key))) :
    pn ∈ preorder [] root := by
  rw [seek_run root hwf] at hm
  exact mem_of_mem_dropWhile _ _ _ hm

/-- Witness for C7 on the extension-free test trie. -/
theorem claim_C7_witness :
    wfN exTrieNoExt = true
  ∧ (([0, 1], (.NibbledBranch [] (mkChildren [(2, .Leaf [3] [98])])
        (some [97]) : Node))
      ∈ run (seekState exTrieNoExt (bytesToNibbles [0x00])))
  ∧ (([0, 1], (.NibbledBranch [] (mkChildren [(2, .Leaf [3] [98])])
        (some [97]) : Node)) ∈ preorder [] exTrieNoExt) := by
  have h : run (seekState exTrieNoExt (bytesToNibbles [0x00]))
      = ([0, 1], (.NibbledBranch [] (mkChildren [(2, .Leaf [3] [98])])
          (some [97]) : Node))
        :: (run (seekState exTrieNoExt (bytesToNibbles [0x00]))).tail := rfl
  have hm : ([0, 1], (.NibbledBranch [] (mkChildren [(2, .Leaf [3] [98])])
        (some [97]) : Node))
      ∈ run (seekState exTrieNoExt (bytesToNibbles [0x00])) := by
    rw [h]
    exact List.mem_cons_self _ _
  exact ⟨rfl, hm, claim_C7 exTrieNoExt rfl [0x00] _ hm⟩

end TrieIter
